import Mathlib

/-!
Shallow embedding of the markovpass passphrase generator.

Sources embedded:
* `src/lib/alias_dist.rs` — `AliasDistribution` (Vose alias-method sampler):
  validation, table construction, entropy accumulation and `choice`.
* `src/markovchain.rs` — `PassphraseMarkovChain`: transition counting over a
  cyclic n-gram sequence, node construction, error taxonomy, and the
  `passphrase` traversal loop.

Modelling conventions:
* `f64` input weights to `AliasDistribution::new` are modelled by `F64`, an
  inductive that keeps the sign bit of finite values (so `-0.0` is
  distinguished from `0.0`, as `f64::is_sign_negative` does) together with
  NaN and infinities.  After validation every weight is a non-negative
  rational, and all subsequent arithmetic (`/`, `*`, `+`, comparisons) is
  modelled exactly over `ℚ`; the claims under verification are stated
  "within floating-point tolerance", which the exact model realises as
  equality.  The one place where IEEE semantics is observable past
  validation is the entropy accumulator: `0.0 * log2(0.0) = 0 * -inf = NaN`,
  which is modelled by an `Option ℝ` accumulator (`none` = NaN).
* `log2` is `Real.logb 2`, so entropy-valued definitions live in `ℝ`.
* Rust panics (`unwrap` on `Err`/`None`) are modelled by `Option`-valued
  functions returning `none`.
* The `HashMap`s of the source are modelled as insertion-ordered association
  lists; iteration order of a Rust `HashMap` is unspecified, and first
  occurrence order is one admissible order.
* `rand_distr::weighted_alias::WeightedAliasIndex` (an external crate
  dependency, not part of this repository) is modelled by `waiNew`, which
  fails exactly when the crate's constructor does on the weight vectors this
  program can produce (empty, negative, or non-positive-total weights) and
  otherwise builds the repository's own alias tables, per the spec's unified
  `WeightedAliasSampler` design.
* The random source: the source draws from `rand::rngs::OsRng` (process-wide
  OS randomness).  Each draw used by a sampler is a pair of an index draw
  `i ∈ [0, n)` (modelled as an arbitrary `ℕ` reduced mod `n`, as
  `gen_range(0, n)` guarantees) and a uniform `y ∈ [0, 1)` (modelled as a
  `ℚ`).  A run's sequence of OS draws is an explicit stream `ℕ → ℕ × ℚ`.
-/

namespace Markovpass

/-! ## A model of `f64` inputs (sign bit, NaN and infinities kept) -/

/-- Model of an `f64` weight: a finite value carries its IEEE sign bit `neg`
and its magnitude as an exact rational (every finite `f64` is rational). -/
inductive F64 where
  | finite (neg : Bool) (mag : ℚ)
  | nan
  | inf (neg : Bool)
  deriving DecidableEq, Repr

/-- `f64::is_sign_negative` (true for `-0.0`; Rust's `f64::NAN` is positive). -/
def F64.isSignNegative : F64 → Bool
  | .finite neg _ => neg
  | .nan => false
  | .inf neg => neg

/-- `f64::is_finite`. -/
def F64.isFinite : F64 → Bool
  | .finite _ _ => true
  | _ => false

/-- The numeric value of a finite `F64` (junk 0 on NaN/inf, which are
rejected by validation before the value is ever read). -/
def F64.toQ : F64 → ℚ
  | .finite neg mag => if neg then -mag else mag
  | _ => 0

/-! ## `src/lib/alias_dist.rs` -/

/-- `AliasDistributionError`. -/
inductive AliasDistributionError where
  | invalidWeight
  | nullDistribution
  deriving DecidableEq, Repr

/-- `AliasDistribution`: probability table (scaled by `n`), alias table, and
the Shannon entropy (`none` models an IEEE NaN produced by a zero weight). -/
structure AliasDistribution where
  probability_table : List ℚ
  alias_table : List ℕ
  entropy : Option ℝ

/-- The `while let (Some(i), Some(j)) = (underfull.pop(), overfull.pop())`
loop of `AliasDistribution::new`.  Lists are used as stacks with the head as
the top (Rust pushes/pops at the `Vec`'s end). -/
def aliasLoop : List ℚ → List ℕ → List ℕ → List ℕ → List ℚ × List ℕ
  | p, a, i :: under, j :: over =>
    let a' := a.set i j
    let p' := p.set j (p.getD j 0 + p.getD i 0 - 1)
    if p'.getD j 0 < 1 then aliasLoop p' a' (j :: under) over
    else aliasLoop p' a' under (j :: over)
  | p, a, _, _ => (p, a)
termination_by _p _a under over => under.length + over.length

/-- Table construction from the initial scaled probability table `pt0`:
alias table starts as the identity, indices are split into underfull
(`< 1.0`) and overfull stacks (scanned in increasing order, so the top of
each stack is the largest index, matching `Vec::pop`), then `aliasLoop`. -/
def aliasTables (pt0 : List ℚ) : List ℚ × List ℕ :=
  let n := pt0.length
  let under0 := ((List.range n).filter (fun i => pt0.getD i 0 < 1)).reverse
  let over0 := ((List.range n).filter (fun i => ¬(pt0.getD i 0 < 1))).reverse
  aliasLoop pt0 (List.range n) under0 over0

/-- The entropy accumulation `entropy -= prob * prob.log(2.0)` over the
probabilities, with IEEE NaN (from `0 * log2 0 = 0 * -inf`) modelled as
`none`; a NaN accumulator stays NaN. -/
noncomputable def entropyAcc (ps : List ℚ) : Option ℝ :=
  ps.foldl
    (fun acc (p : ℚ) =>
      acc.bind (fun a => if p = 0 then none else some (a - (p : ℝ) * Real.logb 2 (p : ℝ))))
    (some 0)

/-- `AliasDistribution::new`. -/
noncomputable def AliasDistribution.new (weights : List F64) :
    Except AliasDistributionError AliasDistribution :=
  if weights.any (fun w => w.isSignNegative || !w.isFinite) then
    .error .invalidWeight
  else
    let size := weights.length
    let total : ℚ := (weights.map F64.toQ).sum
    if total = 0 then .error .nullDistribution
    else
      let probs : List ℚ := weights.map (fun w => w.toQ / total)
      let entropy := entropyAcc probs
      let pt0 : List ℚ := probs.map (fun p => p * size)
      let tables := aliasTables pt0
      .ok { probability_table := tables.1, alias_table := tables.2,
            entropy := entropy }

/-- Number of buckets of the sampler. -/
def AliasDistribution.size (d : AliasDistribution) : ℕ :=
  d.probability_table.length

/-- `AliasDistribution::choice`, with the two random draws made explicit:
`r` models `rng.gen_range(0, n)` (an arbitrary natural reduced mod `n`) and
`y` models `rng.gen::<f64>() ∈ [0, 1)`. -/
def AliasDistribution.choice (d : AliasDistribution) (r : ℕ) (y : ℚ) : ℕ :=
  let i := r % d.size
  if y ≤ d.probability_table.getD i 0 then i else d.alias_table.getD i 0

/-! ## `src/markovchain.rs` -/

/-- `MarkovChainError`. -/
inductive MarkovChainError where
  | noNgrams
  | zeroEntropy
  | zeroStartOfWordEntropy
  deriving DecidableEq, Repr

/-- An n-gram, as its sequence of characters. -/
abbrev Ngram := List Char

/-- `weight_entropy` (`src/markovchain.rs`): `total = sum`, then
`fold (acc - prob * prob.log2())` over `prob = weight / total`.  The weights
this chain feeds it are positive occurrence counts, so `prob > 0` and the
IEEE NaN branch of `0 * log2 0` is unreachable here. -/
noncomputable def weight_entropy (weights : List ℚ) : ℝ :=
  let total : ℚ := weights.sum
  weights.foldl (fun acc w => acc - (w / total : ℚ) * Real.logb 2 ((w / total : ℚ) : ℝ)) 0

/-- Model of `rand_distr::weighted_alias::WeightedAliasIndex::new` (external
crate): errors on an empty vector, a negative weight, or a non-positive
total; otherwise builds alias tables (the spec's unified
`WeightedAliasSampler`; the crate computes no entropy so the field is not
meaningful here and is set to `none`). -/
def waiNew (weights : List ℚ) : Option AliasDistribution :=
  if weights = [] ∨ weights.any (fun w => w < 0) ∨ ¬(0 < weights.sum) then none
  else
    let total := weights.sum
    let pt0 : List ℚ := weights.map (fun w => w / total * weights.length)
    let tables := aliasTables pt0
    some { probability_table := tables.1, alias_table := tables.2, entropy := none }

/-- `MarkovNode`. -/
structure MarkovNode where
  value : Ngram
  transitions : List Ngram
  dist : AliasDistribution
  entropy : ℝ

/-- `MarkovNode::new` — entropy from `weight_entropy`, distribution from
`WeightedAliasIndex::new(weights).unwrap()` (`none` models the panic). -/
noncomputable def MarkovNode.new (value : Ngram) (values : List Ngram) (weights : List ℚ) :
    Option MarkovNode :=
  (waiNew weights).map (fun d =>
    { value := value, transitions := values, dist := d,
      entropy := weight_entropy weights })

/-- `MarkovNode::next`: `transitions[dist.sample(rng)]`, with the two draws
of the alias sampler explicit.  Out-of-range indexing (a panic in Rust) is
modelled by the `getD` default; it is proved unreachable. -/
def MarkovNode.next (nd : MarkovNode) (r : ℕ) (y : ℚ) : Ngram :=
  nd.transitions.getD (nd.dist.choice r y) []

/-- `*counter.entry(k).or_insert(0) += 1` on an insertion-ordered
association list. -/
def bump {α : Type} [DecidableEq α] : List (α × ℕ) → α → List (α × ℕ)
  | [], k => [(k, 1)]
  | (k', c) :: t, k => if k' = k then (k', c + 1) :: t else (k', c) :: bump t k

/-- Update of the nested transition-count table for one observed pair. -/
def bumpTrans : List (Ngram × List (Ngram × ℕ)) → Ngram → Ngram →
    List (Ngram × List (Ngram × ℕ))
  | [], s, t => [(s, [(t, 1)])]
  | (s', inner) :: rest, s, t =>
    if s' = s then (s', bump inner t) :: rest else (s', inner) :: bumpTrans rest s t

/-- The consecutive pairs scanned by the counting loop: each n-gram with its
successor, the last n-gram's successor being the first n-gram. -/
def cyclicPairs : List Ngram → List (Ngram × Ngram)
  | [] => []
  | x :: xs => (x :: xs).zip (xs ++ [x])

/-- The `transition_counters` table after the counting loop. -/
def transitionCounters (ngrams : List Ngram) : List (Ngram × List (Ngram × ℕ)) :=
  (cyclicPairs ngrams).foldl (fun m p => bumpTrans m p.1 p.2) []

/-- Whether an n-gram is a word start, `current_ngram.starts_with(' ')`. -/
def wordStart (g : Ngram) : Bool := g.head? = some ' '

/-- The `starting_ngram_counts` table after the counting loop. -/
def startingCounts (ngrams : List Ngram) : List (Ngram × ℕ) :=
  ngrams.foldl (fun m g => if wordStart g then bump m g else m) []

/-- `PassphraseMarkovChain`. -/
structure PassphraseMarkovChain where
  nodes : List (Ngram × MarkovNode)
  startingNgrams : List Ngram
  startingDist : AliasDistribution
  startingEntropy : ℝ

/-- The node-building loop: one `MarkovNode` per distinct source n-gram,
summing every node's entropy into `total_entropy`.  `none` models the
`unwrap` panic inside `MarkovNode::new`. -/
noncomputable def buildNodes : List (Ngram × List (Ngram × ℕ)) →
    Option (List (Ngram × MarkovNode) × ℝ)
  | [] => some ([], 0)
  | (g, counts) :: rest => do
    let nd ← MarkovNode.new g (counts.map Prod.fst) (counts.map (fun c => (c.2 : ℚ)))
    let (nodes, total) ← buildNodes rest
    some ((g, nd) :: nodes, nd.entropy + total)

/-- First-match association-list lookup with a default, the model of
`HashMap::get` on the uniquely-keyed tables built here. -/
def alookup {α β : Type} [DecidableEq α] (dflt : β) : List (α × β) → α → β
  | [], _ => dflt
  | (k', v) :: t, k => if k' = k then v else alookup dflt t k

/-- The recorded transition count from `s` to `tg` (0 when unrecorded). -/
def lookupTrans (m : List (Ngram × List (Ngram × ℕ))) (s tg : Ngram) : ℕ :=
  alookup 0 (alookup [] m s) tg

/-- The total entropy of a transition-count table: the sum of
`weight_entropy` over each entry's counts, in table order. -/
noncomputable def tableEntropy (m : List (Ngram × List (Ngram × ℕ))) : ℝ :=
  m.foldr (fun pr acc => weight_entropy (pr.2.map (fun c => (c.2 : ℚ))) + acc) 0

/-- The starting weights (occurrence counts of word-start n-grams). -/
def startingWeightsOf (ngrams : List Ngram) : List ℚ :=
  (startingCounts ngrams).map (fun p => (p.2 : ℚ))

/-- The `starting_entropy` value computed during construction. -/
noncomputable def startingEntropyOf (ngrams : List Ngram) : ℝ :=
  weight_entropy (startingWeightsOf ngrams)

/-- The `total_entropy` value computed during construction: the sum of the
per-node entropies. -/
noncomputable def totalEntropyOf (ngrams : List Ngram) : ℝ :=
  tableEntropy (transitionCounters ngrams)

/-- `PassphraseMarkovChain::new`.  The outer `Option` models panics: the
source unwraps the starting-distribution construction (line 111) *before*
the `total_entropy`/`starting_entropy` checks, so an input with no
word-start n-gram panics there. -/
noncomputable def PassphraseMarkovChain.new (ngrams : List Ngram) :
    Option (Except MarkovChainError PassphraseMarkovChain) :=
  match ngrams with
  | [] => some (.error .noNgrams)
  | _ :: _ =>
    let sc := startingCounts ngrams
    let starting_ngrams := sc.map Prod.fst
    let starting_ngram_weights := sc.map (fun p => (p.2 : ℚ))
    let starting_entropy := weight_entropy starting_ngram_weights
    match waiNew starting_ngram_weights with
    | none => none
    | some starting_dist =>
      match buildNodes (transitionCounters ngrams) with
      | none => none
      | some (nodes, total_entropy) =>
        if total_entropy = 0 then some (.error .zeroEntropy)
        else if starting_entropy = 0 then some (.error .zeroStartOfWordEntropy)
        else some (.ok { nodes := nodes, startingNgrams := starting_ngrams,
                         startingDist := starting_dist,
                         startingEntropy := starting_entropy })

/-- `self.nodes.get(ngram)`. -/
def lookupNode (c : PassphraseMarkovChain) (g : Ngram) : Option MarkovNode :=
  (c.nodes.find? (fun p => p.1 = g)).map Prod.snd

/-- `get_starting_ngram`: sample an index into `starting_ngrams`, then look
the chosen n-gram up in the node map (`unwrap` modelled by `Option`). -/
def getStartingNgram (c : PassphraseMarkovChain) (r : ℕ) (y : ℚ) : Option Ngram :=
  let g := c.startingNgrams.getD (c.startingDist.choice r y) []
  (lookupNode c g).map MarkovNode.value

/-- `get_next_ngram`: `self.nodes.get(ngram).unwrap().next()`. -/
def getNextNgram (c : PassphraseMarkovChain) (g : Ngram) (r : ℕ) (y : ℚ) :
    Option Ngram :=
  (lookupNode c g).map (fun nd => nd.next r y)

/-- `ngram_entropy`: `self.nodes.get(ngram).unwrap().entropy()`. -/
def ngramEntropy (c : PassphraseMarkovChain) (g : Ngram) : Option ℝ :=
  (lookupNode c g).map MarkovNode.entropy

/-- Rust's `str::trim`: strip leading and trailing whitespace. -/
def trimChars (l : List Char) : List Char :=
  ((l.dropWhile Char.isWhitespace).reverse.dropWhile Char.isWhitespace).reverse

/-- Output construction from the selected n-grams: the first character of
every selected n-gram (`.chars().next().unwrap()`, whose panic on an empty
n-gram is modelled by `none`), then the last n-gram minus its first
character, then `trim`. -/
def buildPassphrase (sel : List Ngram) : Option Ngram :=
  match sel.getLast? with
  | none => none
  | some lastg =>
    (sel.mapM List.head?).map (fun heads => trimChars (heads ++ lastg.drop 1))

open Classical in
/-- The `for ngram in self.iter()` loop of `passphrase`, with explicit fuel
(`none` on exhaustion models non-termination) and the stream `rng` of OS
draws, indexed from `k`.  Each iteration appends the current n-gram, adds
its node's entropy, stops when the accumulated entropy has reached
`min_entropy` at an n-gram ending in a space, and otherwise advances. -/
noncomputable def passphraseLoop (c : PassphraseMarkovChain) (minE : ℝ)
    (rng : ℕ → ℕ × ℚ) :
    ℕ → Ngram → List Ngram → ℝ → ℕ → Option (List Ngram × ℝ)
  | 0, _, _, _, _ => none
  | fuel + 1, cur, sel, e, k =>
    match ngramEntropy c cur with
    | none => none
    | some h =>
      let sel' := sel ++ [cur]
      let e' := e + h
      if minE ≤ e' ∧ cur.getLast? = some ' ' then some (sel', e')
      else
        match getNextNgram c cur (rng k).1 (rng k).2 with
        | none => none
        | some nxt => passphraseLoop c minE rng fuel nxt sel' e' (k + 1)

/-- `PassphraseMarkovChain::passphrase`: sample a start (consuming draw 0),
run the loop from `starting_entropy`, then build the output string. -/
noncomputable def passphrase (c : PassphraseMarkovChain) (minE : ℝ)
    (rng : ℕ → ℕ × ℚ) (fuel : ℕ) : Option (Ngram × ℝ) :=
  match getStartingNgram c (rng 0).1 (rng 0).2 with
  | none => none
  | some g0 =>
    match passphraseLoop c minE rng fuel g0 [] c.startingEntropy 1 with
    | none => none
    | some (sel, e) =>
      match buildPassphrase sel with
      | none => none
      | some s => some (s, e)

/-! ## Derived quantities the claims speak about -/

/-- The probability that `choice` returns `k` (the bucket view of the final
tables, as computed by the repository's own `test_new`): bucket `k`
contributes `probability_table[k]/n`, and every bucket `j` aliased to `k`
contributes `(1 - probability_table[j])/n`. -/
def choiceMass (d : AliasDistribution) (k : ℕ) : ℚ :=
  d.probability_table.getD k 0 / d.size +
    (∑ j in (Finset.range d.size).filter
      (fun j => d.alias_table.getD j 0 = k), (1 - d.probability_table.getD j 0)) / d.size

/-- The bucket-view mass of index `k` for an intermediate table pair. -/
def bucketMass (n : ℕ) (p : List ℚ) (a : List ℕ) (k : ℕ) : ℚ :=
  p.getD k 0 / n +
    (∑ j in (Finset.range n).filter (fun j => a.getD j 0 = k), (1 - p.getD j 0)) / n

/-- The bucket-view mass of `k` counting only settled buckets (those no
longer on either worklist); the mass of an active bucket is its own
probability entry. -/
def settledMass (n : ℕ) (p : List ℚ) (a : List ℕ) (act : List ℕ) (k : ℕ) : ℚ :=
  p.getD k 0 / n +
    (∑ j in (Finset.range n).filter
      (fun j => j ∉ act ∧ a.getD j 0 = k), (1 - p.getD j 0)) / n

/-- The loop invariant of `aliasLoop`, against target distribution `t` over
`n` buckets: table lengths; the worklists partition the active indices,
within bounds and without duplicates; underfull entries are `< 1` and
overfull entries `≥ 1`; active probability entries sum to the number of
active indices; active aliases are still the identity; the settled bucket
mass of every index is its target mass; and alias entries are in range. -/
def AliasInv (n : ℕ) (t : ℕ → ℚ) (p : List ℚ) (a : List ℕ)
    (under over : List ℕ) : Prop :=
  p.length = n ∧ a.length = n ∧
  (under ++ over).Nodup ∧
  (∀ x ∈ under ++ over, x < n) ∧
  (∀ i ∈ under, p.getD i 0 < 1) ∧
  (∀ j ∈ over, 1 ≤ p.getD j 0) ∧
  (∑ x in (under ++ over).toFinset, p.getD x 0) = ((under ++ over).length : ℚ) ∧
  (∀ x ∈ under ++ over, a.getD x 0 = x) ∧
  (∀ k, k < n → settledMass n p a (under ++ over) k = t k) ∧
  (∀ k, k < n → a.getD k 0 < n)

/-! ## Concrete fixtures -/

/-- An n-gram literal. -/
def ng (s : String) : Ngram := s.toList

/-- A non-negative finite `f64` literal. -/
def f64 (q : ℚ) : F64 := .finite false q

/-- The IEEE value `-0.0`: sign bit set, magnitude zero. -/
def f64NegZero : F64 := .finite true 0

/-- The test fixture of `src/markovchain.rs`. -/
def ngrams8 : List Ngram :=
  [ng " ti", ng "tic", ng "ic ", ng "c t", ng " to", ng "toc", ng "oc ", ng "c t"]

/-- A small corpus with entropy both in the walk and in the starts. -/
def ngrams4 : List Ngram := [ng " a ", ng " b ", ng " a ", ng " c "]

/-- The alias tables a single unit weight produces. -/
def dist1 : AliasDistribution :=
  { probability_table := [1], alias_table := [0], entropy := none }

/-- The alias tables the weights `[1, 1]` produce. -/
def dist2 : AliasDistribution :=
  { probability_table := [1, 1], alias_table := [0, 1], entropy := none }

/-- The alias tables the weights `[2, 1, 1]` produce. -/
def dist211 : AliasDistribution :=
  { probability_table := [1, 3/4, 3/4], alias_table := [0, 0, 0], entropy := none }

/-- The chain built from `ngrams8`. -/
noncomputable def fixtureChain : PassphraseMarkovChain :=
  { nodes :=
      [(ng " ti", ⟨ng " ti", [ng "tic"], dist1, weight_entropy [1]⟩),
       (ng "tic", ⟨ng "tic", [ng "ic "], dist1, weight_entropy [1]⟩),
       (ng "ic ", ⟨ng "ic ", [ng "c t"], dist1, weight_entropy [1]⟩),
       (ng "c t", ⟨ng "c t", [ng " to", ng " ti"], dist2, weight_entropy [1, 1]⟩),
       (ng " to", ⟨ng " to", [ng "toc"], dist1, weight_entropy [1]⟩),
       (ng "toc", ⟨ng "toc", [ng "oc "], dist1, weight_entropy [1]⟩),
       (ng "oc ", ⟨ng "oc ", [ng "c t"], dist1, weight_entropy [1]⟩)],
    startingNgrams := [ng " ti", ng " to"],
    startingDist := dist2,
    startingEntropy := weight_entropy [1, 1] }

/-- The chain built from `ngrams4`. -/
noncomputable def chain4 : PassphraseMarkovChain :=
  { nodes :=
      [(ng " a ", ⟨ng " a ", [ng " b ", ng " c "], dist2, weight_entropy [1, 1]⟩),
       (ng " b ", ⟨ng " b ", [ng " a "], dist1, weight_entropy [1]⟩),
       (ng " c ", ⟨ng " c ", [ng " a "], dist1, weight_entropy [1]⟩)],
    startingNgrams := [ng " a ", ng " b ", ng " c "],
    startingDist := dist211,
    startingEntropy := weight_entropy [2, 1, 1] }

/-- A run whose every OS draw is `(0, 0)`. -/
def rngA : ℕ → ℕ × ℚ := fun _ => (0, 0)

/-- A run whose every OS draw is `(1, 0)`. -/
def rngB : ℕ → ℕ × ℚ := fun _ => (1, 0)

/-- A run agreeing with `rngA` on its first two draws only. -/
def rngD : ℕ → ℕ × ℚ := fun k => if k ≤ 1 then (0, 0) else (1, 1/2)

/-! ## Helper lemmas -/

theorem anyInvalid_iff (ws : List F64) :
    ws.any (fun w => w.isSignNegative || !w.isFinite) = true ↔
      ∃ w ∈ ws, w.isSignNegative = true ∨ w.isFinite = false := by
  simp [List.any_eq_true, Bool.or_eq_true, Bool.not_eq_true']

theorem foldl_entropy_some (ps : List ℚ) (a : ℝ) (h : ∀ p ∈ ps, p ≠ 0) :
    ps.foldl
      (fun acc (p : ℚ) =>
        acc.bind (fun x => if p = 0 then none else some (x - (p : ℝ) * Real.logb 2 (p : ℝ))))
      (some a) =
    some (a - (ps.map (fun p : ℚ => (p : ℝ) * Real.logb 2 (p : ℝ))).sum) := by
  induction ps generalizing a with
  | nil => simp
  | cons q qs ih =>
    have hq : q ≠ 0 := h q (by simp)
    simp only [List.foldl_cons, Option.some_bind, if_neg hq, List.map_cons,
      List.sum_cons]
    rw [ih _ (fun p hp => h p (by simp [hp])), sub_sub]

theorem entropyAcc_eq (ps : List ℚ) (h : ∀ p ∈ ps, p ≠ 0) :
    entropyAcc ps = some (-(ps.map (fun p : ℚ => (p : ℝ) * Real.logb 2 (p : ℝ))).sum) := by
  rw [entropyAcc, foldl_entropy_some ps 0 h, zero_sub]

theorem weight_entropy_foldl (ws : List ℚ) (T : ℚ) (a : ℝ) :
    ws.foldl (fun acc w => acc - (w / T : ℚ) * Real.logb 2 ((w / T : ℚ) : ℝ)) a =
      a - (ws.map (fun w : ℚ => ((w / T : ℚ) : ℝ) * Real.logb 2 ((w / T : ℚ) : ℝ))).sum := by
  induction ws generalizing a with
  | nil => simp
  | cons q qs ih =>
    simp only [List.foldl_cons, List.map_cons, List.sum_cons]
    rw [ih, sub_sub]

theorem weight_entropy_eq (ws : List ℚ) :
    weight_entropy ws =
      -(ws.map (fun w : ℚ => ((w / ws.sum : ℚ) : ℝ) *
          Real.logb 2 ((w / ws.sum : ℚ) : ℝ))).sum := by
  rw [weight_entropy, weight_entropy_foldl, zero_sub]

theorem logb_two_half : Real.logb 2 ((1 : ℝ) / 2) = -1 := by
  rw [one_div, Real.logb_inv, Real.logb_self_eq_one] <;> norm_num

theorem logb_two_quarter : Real.logb 2 ((1 : ℝ) / 4) = -2 := by
  rw [show (1 / 4 : ℝ) = ((2 : ℝ) ^ (2 : ℕ))⁻¹ by norm_num, Real.logb_inv,
    Real.logb_pow, Real.logb_self_eq_one] <;> norm_num

theorem logb_two_eighth : Real.logb 2 ((1 : ℝ) / 8) = -3 := by
  rw [show (1 / 8 : ℝ) = ((2 : ℝ) ^ (3 : ℕ))⁻¹ by norm_num, Real.logb_inv,
    Real.logb_pow, Real.logb_self_eq_one] <;> norm_num

theorem weight_entropy_one : weight_entropy [1] = 0 := by
  rw [weight_entropy_eq]
  norm_num

theorem weight_entropy_pair : weight_entropy [1, 1] = 1 := by
  rw [weight_entropy_eq]
  norm_num [logb_two_half]

theorem weight_entropy_triple : weight_entropy [2, 1, 1] = 3 / 2 := by
  rw [weight_entropy_eq]
  norm_num [logb_two_half, logb_two_quarter]

theorem getD_set_self {α : Type} (l : List α) (d : α) {j : ℕ} (h : j < l.length)
    (v : α) : (l.set j v).getD j d = v := by
  simp [List.getD, List.getElem?_set_eq_of_lt v h]

theorem getD_set_ne {α : Type} (l : List α) (d : α) {i j : ℕ} (hne : j ≠ i)
    (v : α) : (l.set i v).getD j d = l.getD j d := by
  simp [List.getD, List.getElem?_set_ne (Ne.symm hne)]

theorem sum_getD_range (l : List ℚ) :
    ∑ i in Finset.range l.length, l.getD i 0 = l.sum := by
  induction l with
  | nil => simp
  | cons q qs ih =>
    rw [List.length_cons, Finset.sum_range_succ']
    simp only [List.getD_cons_succ, List.getD_cons_zero]
    rw [ih, List.sum_cons, add_comm]

theorem bucketMass_eq_settledMass (n : ℕ) (p : List ℚ) (a : List ℕ)
    (act : List ℕ) (h1 : ∀ x ∈ act, p.getD x 0 = 1) (k : ℕ) :
    bucketMass n p a k = settledMass n p a act k := by
  unfold bucketMass settledMass
  congr 2
  refine (Finset.sum_subset ?_ ?_).symm
  · intro x hx
    rw [Finset.mem_filter] at hx ⊢
    exact ⟨hx.1, hx.2.2⟩
  · intro x hx hnx
    rw [Finset.mem_filter] at hx hnx
    have hxact : x ∈ act := by
      by_contra hc
      exact hnx ⟨hx.1, hc, hx.2⟩
    rw [h1 x hxact]
    ring

theorem step_inv (n : ℕ) (t : ℕ → ℚ) (p : List ℚ) (a : List ℕ) (i j : ℕ)
    (u' o' : List ℕ) (hinv : AliasInv n t p a (i :: u') (j :: o'))
    (U O : List ℕ) (hperm : (U ++ O).Perm (j :: (u' ++ o')))
    (hU : ∀ x ∈ U, (p.set j (p.getD j 0 + p.getD i 0 - 1)).getD x 0 < 1)
    (hO : ∀ x ∈ O, 1 ≤ (p.set j (p.getD j 0 + p.getD i 0 - 1)).getD x 0) :
    AliasInv n t (p.set j (p.getD j 0 + p.getD i 0 - 1)) (a.set i j) U O := by
  obtain ⟨hlp, hla, hnd, hbd, hun, hov, hsum, hid, hG, habd⟩ := hinv
  have hAperm : ((i :: u') ++ (j :: o')).Perm (i :: (j :: (u' ++ o'))) := by
    rw [List.cons_append]
    exact List.Perm.cons i List.perm_middle
  have hndiB : (i :: (j :: (u' ++ o'))).Nodup := hAperm.nodup hnd
  have hiB : i ∉ j :: (u' ++ o') := (List.nodup_cons.mp hndiB).1
  have hndB : (j :: (u' ++ o')).Nodup := (List.nodup_cons.mp hndiB).2
  have hjB : j ∉ u' ++ o' := (List.nodup_cons.mp hndB).1
  have hij : i ≠ j := fun h => hiB (h ▸ List.mem_cons_self j (u' ++ o'))
  have hi_n : i < n := hbd i (by simp)
  have hj_n : j < n := hbd j (by simp)
  have hA_iff : ∀ x, x ∈ (i :: u') ++ (j :: o') ↔ x = i ∨ x ∈ j :: (u' ++ o') := by
    intro x
    rw [hAperm.mem_iff, List.mem_cons]
  have hUO_iff : ∀ x, x ∈ U ++ O ↔ x ∈ j :: (u' ++ o') := fun x => hperm.mem_iff
  have hp'j : (p.set j (p.getD j 0 + p.getD i 0 - 1)).getD j 0 =
      p.getD j 0 + p.getD i 0 - 1 := getD_set_self p 0 (hlp ▸ hj_n) _
  have hp'ne : ∀ x, x ≠ j →
      (p.set j (p.getD j 0 + p.getD i 0 - 1)).getD x 0 = p.getD x 0 :=
    fun x hx => getD_set_ne p 0 hx _
  have ha'i : (a.set i j).getD i 0 = j := getD_set_self a 0 (hla ▸ hi_n) j
  have ha'ne : ∀ x, x ≠ i → (a.set i j).getD x 0 = a.getD x 0 :=
    fun x hx => getD_set_ne a 0 hx _
  refine ⟨by simp [hlp], by simp [hla], hperm.symm.nodup hndB, ?_, hU, hO, ?_, ?_, ?_, ?_⟩
  · intro x hx
    exact hbd x ((hA_iff x).mpr (Or.inr ((hUO_iff x).mp hx)))
  · -- active sum
    have hTFeq : (U ++ O).toFinset = (j :: (u' ++ o')).toFinset :=
      List.toFinset_eq_of_perm _ _ hperm
    have hjT : j ∉ (u' ++ o').toFinset := by simpa using hjB
    have hiT : i ∉ (j :: (u' ++ o')).toFinset := by simpa using hiB
    have hsum' : p.getD i 0 + (p.getD j 0 +
        ∑ x in (u' ++ o').toFinset, p.getD x 0) =
        (((i :: u') ++ (j :: o')).length : ℚ) := by
      have hTFA : ((i :: u') ++ (j :: o')).toFinset =
          insert i ((j :: (u' ++ o')).toFinset) := by
        rw [List.toFinset_eq_of_perm _ _ hAperm, List.toFinset_cons]
      rw [hTFA, Finset.sum_insert hiT, List.toFinset_cons,
        Finset.sum_insert hjT] at hsum
      exact hsum
    rw [hTFeq, List.toFinset_cons, Finset.sum_insert hjT]
    have hcongr : ∑ x in (u' ++ o').toFinset,
        (p.set j (p.getD j 0 + p.getD i 0 - 1)).getD x 0 =
        ∑ x in (u' ++ o').toFinset, p.getD x 0 := by
      refine Finset.sum_congr rfl (fun x hx => ?_)
      exact hp'ne x (fun h => hjT (h ▸ hx))
    rw [hcongr, hp'j, hperm.length_eq]
    simp only [List.length_append, List.length_cons] at hsum' ⊢
    push_cast at hsum' ⊢
    linarith
  · -- identity on the new active set
    intro x hx
    have hxB : x ∈ j :: (u' ++ o') := (hUO_iff x).mp hx
    have hxi : x ≠ i := fun h => hiB (h ▸ hxB)
    rw [ha'ne x hxi]
    exact hid x ((hA_iff x).mpr (Or.inr hxB))
  · -- settled mass is preserved
    intro k hk
    have hGk := hG k hk
    have hikA : i ∈ (i :: u') ++ (j :: o') := by simp
    have hjA : j ∈ (i :: u') ++ (j :: o') := by simp
    have hiUO : i ∉ U ++ O := fun h => hiB ((hUO_iff i).mp h)
    have hF' : (Finset.range n).filter
        (fun x => x ∉ U ++ O ∧ (a.set i j).getD x 0 = k) =
        (if j = k then insert i ((Finset.range n).filter
          (fun x => x ∉ (i :: u') ++ (j :: o') ∧ a.getD x 0 = k))
        else (Finset.range n).filter
          (fun x => x ∉ (i :: u') ++ (j :: o') ∧ a.getD x 0 = k)) := by
      have hmemaux : ∀ x, (x ∉ U ++ O ∧ (a.set i j).getD x 0 = k) ↔
          ((x = i ∧ j = k) ∨
            (x ∉ (i :: u') ++ (j :: o') ∧ a.getD x 0 = k)) := by
        intro x
        by_cases hxi : x = i
        · subst hxi
          rw [ha'i]
          simp [hiUO, hikA]
        · rw [ha'ne x hxi, hUO_iff x, hA_iff x]
          simp only [hxi, false_and, false_or, not_or]
      by_cases hjk : j = k
      · rw [if_pos hjk]
        ext x
        rw [Finset.mem_insert, Finset.mem_filter, Finset.mem_filter]
        constructor
        · rintro ⟨hr, hrest⟩
          rcases (hmemaux x).mp hrest with ⟨rfl, _⟩ | hF
          · exact Or.inl rfl
          · exact Or.inr ⟨hr, hF⟩
        · rintro (rfl | ⟨hr, hF⟩)
          · exact ⟨Finset.mem_range.mpr hi_n, (hmemaux x).mpr (Or.inl ⟨rfl, hjk⟩)⟩
          · exact ⟨hr, (hmemaux x).mpr (Or.inr hF)⟩
      · rw [if_neg hjk]
        ext x
        rw [Finset.mem_filter, Finset.mem_filter]
        constructor
        · rintro ⟨hr, hrest⟩
          rcases (hmemaux x).mp hrest with ⟨_, hj⟩ | hF
          · exact absurd hj hjk
          · exact ⟨hr, hF⟩
        · rintro ⟨hr, hF⟩
          exact ⟨hr, (hmemaux x).mpr (Or.inr hF)⟩
    have hiF : i ∉ (Finset.range n).filter
        (fun x => x ∉ (i :: u') ++ (j :: o') ∧ a.getD x 0 = k) := by
      rw [Finset.mem_filter]
      exact fun h => h.2.1 hikA
    have hsumF : ∑ x in (Finset.range n).filter
        (fun x => x ∉ (i :: u') ++ (j :: o') ∧ a.getD x 0 = k),
        (1 - (p.set j (p.getD j 0 + p.getD i 0 - 1)).getD x 0) =
        ∑ x in (Finset.range n).filter
          (fun x => x ∉ (i :: u') ++ (j :: o') ∧ a.getD x 0 = k),
        (1 - p.getD x 0) := by
      refine Finset.sum_congr rfl (fun x hx => ?_)
      rw [Finset.mem_filter] at hx
      rw [hp'ne x (fun h => hx.2.1 (h ▸ hjA))]
    unfold settledMass at hGk ⊢
    rw [hF']
    by_cases hjk : j = k
    · rw [if_pos hjk, Finset.sum_insert hiF, hsumF, hp'ne i hij]
      have hpk : (p.set j (p.getD j 0 + p.getD i 0 - 1)).getD k 0 =
          p.getD j 0 + p.getD i 0 - 1 := hjk ▸ hp'j
      rw [hpk, ← hGk, hjk, div_add_div_same, div_add_div_same]
      congr 1
      ring
    · rw [if_neg hjk, hsumF, hp'ne k (fun h => hjk h.symm), hGk]
  · -- alias entries stay in range
    intro k hk
    by_cases hki : k = i
    · subst hki
      rw [ha'i]
      exact hj_n
    · rw [ha'ne k hki]
      exact habd k hk

theorem aliasLoop_base (n : ℕ) (t : ℕ → ℚ) (p : List ℚ) (a : List ℕ)
    (over : List ℕ) (hinv : AliasInv n t p a [] over) :
    (∀ k, k < n → bucketMass n p a k = t k) ∧ p.length = n ∧ a.length = n ∧
    (∀ k, k < n → a.getD k 0 < n) := by
  obtain ⟨hlp, hla, hnd, hbd, hun, hov, hsum, hid, hG, habd⟩ := hinv
  have hndo : over.Nodup := by simpa using hnd
  have hcard : over.toFinset.card = over.length := List.toFinset_card_of_nodup hndo
  have hconst : ∑ _x in over.toFinset, (1 : ℚ) = (over.length : ℚ) := by
    rw [Finset.sum_const, hcard, nsmul_eq_mul, mul_one]
  simp only [List.nil_append] at hsum
  have hone : ∀ x ∈ over, p.getD x 0 = 1 := by
    have hs0 : ∑ x in over.toFinset, (p.getD x 0 - 1) = 0 := by
      rw [Finset.sum_sub_distrib, hconst, hsum, sub_self]
    have hpos : ∀ x ∈ over.toFinset, (0 : ℚ) ≤ p.getD x 0 - 1 := by
      intro x hx
      have := hov x (List.mem_toFinset.mp hx)
      linarith
    intro x hx
    have := (Finset.sum_eq_zero_iff_of_nonneg hpos).mp hs0 x (List.mem_toFinset.mpr hx)
    linarith
  refine ⟨?_, hlp, hla, habd⟩
  intro k hk
  rw [bucketMass_eq_settledMass n p a ([] ++ over) (fun x hx => hone x (by simpa using hx)) k]
  exact hG k hk

theorem aliasLoop_stuck (n : ℕ) (t : ℕ → ℚ) (p : List ℚ) (a : List ℕ)
    (i : ℕ) (u' : List ℕ) (hinv : AliasInv n t p a (i :: u') []) : False := by
  obtain ⟨hlp, hla, hnd, hbd, hun, hov, hsum, hid, hG, habd⟩ := hinv
  have hndu : (i :: u').Nodup := by simpa using hnd
  have hcard : (i :: u').toFinset.card = (i :: u').length :=
    List.toFinset_card_of_nodup hndu
  have hne : (i :: u').toFinset.Nonempty := ⟨i, by simp⟩
  simp only [List.append_nil] at hsum hun
  have hlt : ∑ x in (i :: u').toFinset, p.getD x 0 <
      ∑ _x in (i :: u').toFinset, (1 : ℚ) :=
    Finset.sum_lt_sum_of_nonempty hne
      (fun x hx => hun x (List.mem_toFinset.mp hx))
  rw [hsum, Finset.sum_const, hcard, nsmul_eq_mul, mul_one] at hlt
  exact lt_irrefl _ hlt

theorem aliasLoop_spec (n : ℕ) (t : ℕ → ℚ) (N : ℕ) :
    ∀ (under over : List ℕ) (p : List ℚ) (a : List ℕ),
      under.length + over.length ≤ N →
      AliasInv n t p a under over →
      (∀ k, k < n →
        bucketMass n (aliasLoop p a under over).1 (aliasLoop p a under over).2 k = t k) ∧
      (aliasLoop p a under over).1.length = n ∧
      (aliasLoop p a under over).2.length = n ∧
      (∀ k, k < n → (aliasLoop p a under over).2.getD k 0 < n) := by
  induction N with
  | zero =>
    intro under over p a hlen hinv
    have hu : under = [] := List.length_eq_zero.mp (by omega)
    have ho : over = [] := List.length_eq_zero.mp (by omega)
    subst hu
    subst ho
    simpa [aliasLoop] using aliasLoop_base n t p a [] hinv
  | succ N ih =>
    intro under over p a hlen hinv
    cases under with
    | nil =>
      simpa [aliasLoop] using aliasLoop_base n t p a over hinv
    | cons i u' =>
      cases over with
      | nil =>
        exact absurd (aliasLoop_stuck n t p a i u' hinv) not_false
      | cons j o' =>
        have hnd := hinv.2.2.1
        have hun := hinv.2.2.2.2.1
        have hov := hinv.2.2.2.2.2.1
        have hndiB : (i :: (j :: (u' ++ o'))).Nodup :=
          (List.Perm.cons i List.perm_middle).nodup (List.cons_append i u' (j :: o') ▸ hnd)
        have hjB : j ∉ u' ++ o' :=
          (List.nodup_cons.mp (List.nodup_cons.mp hndiB).2).1
        have hju : j ∉ u' := fun h => hjB (List.mem_append.mpr (Or.inl h))
        have hjo : j ∉ o' := fun h => hjB (List.mem_append.mpr (Or.inr h))
        rw [aliasLoop]
        split_ifs with hcond
        · have hinv' := step_inv n t p a i j u' o' hinv (j :: u') o'
            (by rw [List.cons_append]) ?_ ?_
          · exact ih (j :: u') o' _ _ (by simp at hlen ⊢; omega) hinv'
          · intro x hx
            rcases List.mem_cons.mp hx with rfl | hx'
            · exact hcond
            · rw [getD_set_ne p 0 (fun h => hju (by rw [← h]; exact hx')) _]
              exact hun x (List.mem_cons.mpr (Or.inr hx'))
          · intro x hx
            rw [getD_set_ne p 0 (fun h => hjo (by rw [← h]; exact hx)) _]
            exact hov x (List.mem_cons.mpr (Or.inr hx))
        · have hinv' := step_inv n t p a i j u' o' hinv u' (j :: o')
            List.perm_middle ?_ ?_
          · exact ih u' (j :: o') _ _ (by simp at hlen ⊢; omega) hinv'
          · intro x hx
            rw [getD_set_ne p 0 (fun h => hju (by rw [← h]; exact hx)) _]
            exact hun x (List.mem_cons.mpr (Or.inr hx))
          · intro x hx
            rcases List.mem_cons.mp hx with rfl | hx'
            · exact le_of_not_lt hcond
            · rw [getD_set_ne p 0 (fun h => hjo (by rw [← h]; exact hx')) _]
              exact hov x (List.mem_cons.mpr (Or.inr hx'))

theorem getD_range (n k : ℕ) (h : k < n) : (List.range n).getD k 0 = k := by
  rw [List.getD_eq_getElem _ 0 (by simpa using h)]
  simp

theorem aliasTables_spec (pt0 : List ℚ) (t : ℕ → ℚ)
    (ht : ∀ k, k < pt0.length → pt0.getD k 0 = pt0.length * t k)
    (hsum : pt0.sum = (pt0.length : ℚ)) :
    (∀ k, k < pt0.length →
      bucketMass pt0.length (aliasTables pt0).1 (aliasTables pt0).2 k = t k) ∧
    (aliasTables pt0).1.length = pt0.length ∧
    (aliasTables pt0).2.length = pt0.length ∧
    (∀ k, k < pt0.length → (aliasTables pt0).2.getD k 0 < pt0.length) := by
  have hmem : ∀ x, x ∈ ((List.range pt0.length).filter
        (fun i => pt0.getD i 0 < 1)).reverse ++
      ((List.range pt0.length).filter (fun i => ¬(pt0.getD i 0 < 1))).reverse ↔
      x ∈ List.range pt0.length := by
    intro x
    simp only [List.mem_append, List.mem_reverse, List.mem_filter,
      decide_eq_true_eq]
    constructor
    · rintro (⟨h, _⟩ | ⟨h, _⟩) <;> exact h
    · intro h
      rcases lt_or_le (pt0.getD x 0) 1 with hx | hx
      · exact Or.inl ⟨h, hx⟩
      · exact Or.inr ⟨h, not_lt.mpr hx⟩
  have hnd : (((List.range pt0.length).filter
        (fun i => pt0.getD i 0 < 1)).reverse ++
      ((List.range pt0.length).filter
        (fun i => ¬(pt0.getD i 0 < 1))).reverse).Nodup := by
    refine List.Nodup.append ?_ ?_ ?_
    · exact List.nodup_reverse.mpr ((List.nodup_range _).filter _)
    · exact List.nodup_reverse.mpr ((List.nodup_range _).filter _)
    · intro x hx hy
      rw [List.mem_reverse, List.mem_filter, decide_eq_true_eq] at hx hy
      exact absurd hx.2 (by simpa using hy.2)
  have htoF : ((((List.range pt0.length).filter
        (fun i => pt0.getD i 0 < 1)).reverse ++
      ((List.range pt0.length).filter
        (fun i => ¬(pt0.getD i 0 < 1))).reverse)).toFinset =
      Finset.range pt0.length := by
    ext x
    rw [List.mem_toFinset, hmem x, List.mem_range, Finset.mem_range]
  have hlenact : ((((List.range pt0.length).filter
        (fun i => pt0.getD i 0 < 1)).reverse ++
      ((List.range pt0.length).filter
        (fun i => ¬(pt0.getD i 0 < 1))).reverse)).length = pt0.length := by
    rw [← List.toFinset_card_of_nodup hnd, htoF, Finset.card_range]
  have hinv : AliasInv pt0.length t pt0 (List.range pt0.length)
      (((List.range pt0.length).filter (fun i => pt0.getD i 0 < 1)).reverse)
      (((List.range pt0.length).filter (fun i => ¬(pt0.getD i 0 < 1))).reverse) := by
    refine ⟨rfl, by simp, hnd, ?_, ?_, ?_, ?_, ?_, ?_, ?_⟩
    · intro x hx
      simpa using (hmem x).mp hx
    · intro x hx
      rw [List.mem_reverse, List.mem_filter, decide_eq_true_eq] at hx
      exact hx.2
    · intro x hx
      rw [List.mem_reverse, List.mem_filter, decide_eq_true_eq] at hx
      exact le_of_not_lt hx.2
    · rw [htoF, hlenact, sum_getD_range, hsum]
    · intro x hx
      exact getD_range _ _ (by simpa using (hmem x).mp hx)
    · intro k hk
      have hnn : ((pt0.length : ℚ)) ≠ 0 := Nat.cast_ne_zero.mpr (by omega)
      have hempty : (Finset.range pt0.length).filter
          (fun x => x ∉ (((List.range pt0.length).filter
              (fun i => pt0.getD i 0 < 1)).reverse ++
            ((List.range pt0.length).filter
              (fun i => ¬(pt0.getD i 0 < 1))).reverse) ∧
            (List.range pt0.length).getD x 0 = k) = ∅ := by
        rw [Finset.filter_eq_empty_iff]
        intro x hx
        rw [Finset.mem_range] at hx
        exact fun hc => hc.1 ((hmem x).mpr (List.mem_range.mpr hx))
      rw [settledMass, hempty, Finset.sum_empty, zero_div, add_zero,
        ht k hk, mul_comm, mul_div_assoc, div_self hnn, mul_one]
    · intro k hk
      rw [getD_range _ _ hk]
      exact hk
  have hspec := aliasLoop_spec pt0.length t
    ((((List.range pt0.length).filter (fun i => pt0.getD i 0 < 1)).reverse).length +
      ((((List.range pt0.length).filter (fun i => ¬(pt0.getD i 0 < 1))).reverse)).length)
    _ _ _ _ le_rfl hinv
  rw [aliasTables]
  exact hspec

theorem getD_map {α β : Type} (f : α → β) (l : List α) (db : β) (k : ℕ)
    (h : k < l.length) : (l.map f).getD k db = f l[k] := by
  rw [List.getD_eq_getElem _ _ (by simpa using h)]
  simp

theorem scaled_probs_sum (l : List F64) (c n : ℚ) :
    ((l.map (fun w => w.toQ / c)).map (fun p => p * n)).sum =
      (l.map F64.toQ).sum / c * n := by
  induction l with
  | nil => simp
  | cons w t ih =>
    simp only [List.map_cons, List.sum_cons, ih]
    ring

theorem scaled_weights_sum (l : List ℚ) (c n : ℚ) :
    (l.map (fun w => w / c * n)).sum = l.sum / c * n := by
  induction l with
  | nil => simp
  | cons w t ih =>
    simp only [List.map_cons, List.sum_cons, ih]
    ring

/-- Inversion of a successful `AliasDistribution::new`: the tables are the
alias tables of the scaled probabilities, and they reproduce the normalized
input distribution exactly. -/
theorem alias_new_ok_spec (ws : List F64) (d : AliasDistribution)
    (hok : AliasDistribution.new ws = .ok d) :
    d.size = ws.length ∧ d.alias_table.length = ws.length ∧ 0 < d.size ∧
    (∀ k, k < d.size → d.alias_table.getD k 0 < d.size) ∧
    (∀ k, k < ws.length →
      choiceMass d k = (ws.map F64.toQ).getD k 0 / (ws.map F64.toQ).sum) := by
  simp only [AliasDistribution.new] at hok
  split_ifs at hok with hA hT
  · have heq := Except.ok.inj hok
    have hne : ws ≠ [] := by
      intro h
      exact hT (by simp [h])
    have htne : (ws.map F64.toQ).sum ≠ 0 := hT
    have hlen : ((ws.map (fun w => w.toQ / (ws.map F64.toQ).sum)).map
        (fun p => p * (ws.length : ℚ))).length = ws.length := by simp
    have ht : ∀ k, k < ((ws.map (fun w => w.toQ / (ws.map F64.toQ).sum)).map
        (fun p => p * (ws.length : ℚ))).length →
        ((ws.map (fun w => w.toQ / (ws.map F64.toQ).sum)).map
          (fun p => p * (ws.length : ℚ))).getD k 0 =
        ((ws.map (fun w => w.toQ / (ws.map F64.toQ).sum)).map
          (fun p => p * (ws.length : ℚ))).length *
          ((ws.map F64.toQ).getD k 0 / (ws.map F64.toQ).sum) := by
      intro k hk
      rw [hlen] at hk
      rw [getD_map _ _ _ k (by simpa using hk), getD_map _ _ _ k hk, hlen]
      simp only [List.getElem_map]
      ring
    have hsum : ((ws.map (fun w => w.toQ / (ws.map F64.toQ).sum)).map
        (fun p => p * (ws.length : ℚ))).sum =
        (((ws.map (fun w => w.toQ / (ws.map F64.toQ).sum)).map
          (fun p => p * (ws.length : ℚ))).length : ℚ) := by
      rw [scaled_probs_sum, div_self htne, one_mul, hlen]
    have hspec := aliasTables_spec _ _ ht hsum
    rcases hspec with ⟨hmass, hl1, hl2, hbd⟩
    rw [hlen] at hmass hl1 hl2 hbd
    have hdpt : d.probability_table =
        (aliasTables ((ws.map (fun w => w.toQ / (ws.map F64.toQ).sum)).map
          (fun p => p * (ws.length : ℚ)))).1 := by rw [← heq]
    have hdat : d.alias_table =
        (aliasTables ((ws.map (fun w => w.toQ / (ws.map F64.toQ).sum)).map
          (fun p => p * (ws.length : ℚ)))).2 := by rw [← heq]
    have hsize : d.size = ws.length := by
      rw [AliasDistribution.size, hdpt, hl1]
    have hszpos : 0 < d.size := by
      rw [hsize]
      exact List.length_pos.mpr hne
    refine ⟨hsize, by rw [hdat, hl2], hszpos, ?_, ?_⟩
    · intro k hk
      rw [hdat, hsize]
      exact hbd k (by rwa [hsize] at hk)
    · intro k hk
      have : choiceMass d k =
          bucketMass d.size d.probability_table d.alias_table k := rfl
      rw [this, hdpt, hdat, hsize]
      exact hmass k hk

/-- Inversion of a successful external `WeightedAliasIndex::new` (`waiNew`),
giving the same table guarantees for the chain's samplers. -/
theorem waiNew_ok_spec (ws : List ℚ) (d : AliasDistribution)
    (hok : waiNew ws = some d) :
    d.size = ws.length ∧ d.alias_table.length = ws.length ∧ 0 < d.size ∧
    (∀ k, k < d.size → d.alias_table.getD k 0 < d.size) ∧
    (∀ k, k < ws.length → choiceMass d k = ws.getD k 0 / ws.sum) := by
  simp only [waiNew] at hok
  split_ifs at hok with hc
  · have heq := Option.some.inj hok
    push_neg at hc
    obtain ⟨hne, _, hpos⟩ := hc
    have hpos' : 0 < ws.sum := by
      rcases lt_or_le 0 ws.sum with h | h
      · exact h
      · exact absurd h (by simpa using hpos)
    have htne : ws.sum ≠ 0 := ne_of_gt hpos'
    have hlen : (ws.map (fun w => w / ws.sum * (ws.length : ℚ))).length =
        ws.length := by simp
    have ht : ∀ k, k < (ws.map (fun w => w / ws.sum * (ws.length : ℚ))).length →
        (ws.map (fun w => w / ws.sum * (ws.length : ℚ))).getD k 0 =
        (ws.map (fun w => w / ws.sum * (ws.length : ℚ))).length *
          (ws.getD k 0 / ws.sum) := by
      intro k hk
      rw [hlen] at hk
      rw [getD_map _ _ _ k hk, hlen, List.getD_eq_getElem _ _ hk]
      ring
    have hsum : (ws.map (fun w => w / ws.sum * (ws.length : ℚ))).sum =
        ((ws.map (fun w => w / ws.sum * (ws.length : ℚ))).length : ℚ) := by
      rw [scaled_weights_sum, div_self htne, one_mul, hlen]
    have hspec := aliasTables_spec _ _ ht hsum
    rcases hspec with ⟨hmass, hl1, hl2, hbd⟩
    rw [hlen] at hmass hl1 hl2 hbd
    have hdpt : d.probability_table =
        (aliasTables (ws.map (fun w => w / ws.sum * (ws.length : ℚ)))).1 := by
      rw [← heq]
    have hdat : d.alias_table =
        (aliasTables (ws.map (fun w => w / ws.sum * (ws.length : ℚ)))).2 := by
      rw [← heq]
    have hsize : d.size = ws.length := by
      rw [AliasDistribution.size, hdpt, hl1]
    have hszpos : 0 < d.size := by
      rw [hsize]
      exact List.length_pos.mpr hne
    refine ⟨hsize, by rw [hdat, hl2], hszpos, ?_, ?_⟩
    · intro k hk
      rw [hdat, hsize]
      exact hbd k (by rwa [hsize] at hk)
    · intro k hk
      have : choiceMass d k =
          bucketMass d.size d.probability_table d.alias_table k := rfl
      rw [this, hdpt, hdat, hsize]
      exact hmass k hk

/-- The `choice` of any sampler whose alias entries are in range lands in
range. -/
theorem choice_lt (d : AliasDistribution) (hszpos : 0 < d.size)
    (hbd : ∀ k, k < d.size → d.alias_table.getD k 0 < d.size) (r : ℕ) (y : ℚ) :
    d.choice r y < d.size := by
  rw [AliasDistribution.choice]
  have hi : r % d.size < d.size := Nat.mod_lt r hszpos
  split_ifs
  · exact hi
  · exact hbd _ hi

theorem tab_one : aliasTables [(1:ℚ)] = ([1], [0]) := by
  norm_num [aliasTables, List.range_succ]
  simp [aliasLoop]

theorem tab_pair : aliasTables [(1:ℚ), 1] = ([1, 1], [0, 1]) := by
  norm_num [aliasTables, List.range_succ]
  simp [aliasLoop]

theorem tab_211 : aliasTables [(3:ℚ)/2, 3/4, 3/4] = ([1, 3/4, 3/4], [0, 0, 0]) := by
  norm_num [aliasTables, List.range_succ]
  rw [aliasLoop]
  norm_num [List.set]
  rw [aliasLoop]
  norm_num [List.set]
  simp [aliasLoop]

theorem wai_one : waiNew [1] = some dist1 := by
  have hc : ¬(([(1:ℚ)] : List ℚ) = [] ∨
      (([(1:ℚ)] : List ℚ).any fun w => decide (w < 0)) = true ∨
      ¬0 < ([(1:ℚ)] : List ℚ).sum) := by
    push_neg
    refine ⟨by simp, ?_, by norm_num⟩
    norm_num [List.any_cons, List.any_nil]
  simp only [waiNew, if_neg hc]
  have hX : List.map
      (fun w => w / ([(1:ℚ)] : List ℚ).sum * (([(1:ℚ)] : List ℚ).length : ℚ))
      [(1:ℚ)] = [1] := by
    norm_num
  rw [hX, tab_one]
  rfl

theorem wai_pair : waiNew [1, 1] = some dist2 := by
  have hc : ¬(([(1:ℚ), 1] : List ℚ) = [] ∨
      (([(1:ℚ), 1] : List ℚ).any fun w => decide (w < 0)) = true ∨
      ¬0 < ([(1:ℚ), 1] : List ℚ).sum) := by
    push_neg
    refine ⟨by simp, ?_, by norm_num⟩
    norm_num [List.any_cons, List.any_nil]
  simp only [waiNew, if_neg hc]
  have hX : List.map
      (fun w => w / ([(1:ℚ), 1] : List ℚ).sum * (([(1:ℚ), 1] : List ℚ).length : ℚ))
      [(1:ℚ), 1] = [1, 1] := by
    norm_num
  rw [hX, tab_pair]
  rfl

theorem wai_211 : waiNew [2, 1, 1] = some dist211 := by
  have hc : ¬(([(2:ℚ), 1, 1] : List ℚ) = [] ∨
      (([(2:ℚ), 1, 1] : List ℚ).any fun w => decide (w < 0)) = true ∨
      ¬0 < ([(2:ℚ), 1, 1] : List ℚ).sum) := by
    push_neg
    refine ⟨by simp, ?_, by norm_num⟩
    norm_num [List.any_cons, List.any_nil]
  simp only [waiNew, if_neg hc]
  have hX : List.map
      (fun w => w / ([(2:ℚ), 1, 1] : List ℚ).sum *
        (([(2:ℚ), 1, 1] : List ℚ).length : ℚ))
      [(2:ℚ), 1, 1] = [3/2, 3/4, 3/4] := by
    norm_num
  rw [hX, tab_211]
  rfl

theorem alias_new_pair : AliasDistribution.new [f64 1, f64 1] =
    .ok { probability_table := [1, 1], alias_table := [0, 1], entropy := some 1 } := by
  have hA : ([f64 1, f64 1].any fun w => w.isSignNegative || !w.isFinite) = false := by
    decide
  have hT : ¬((List.map F64.toQ [f64 1, f64 1]).sum = 0) := by norm_num [f64, F64.toQ]
  simp only [AliasDistribution.new, hA, Bool.false_eq_true, if_false, if_neg hT]
  have hprobs : List.map
      (fun w => F64.toQ w / (List.map F64.toQ [f64 1, f64 1]).sum)
      [f64 1, f64 1] = [1/2, 1/2] := by
    norm_num [f64, F64.toQ]
  rw [hprobs]
  have hpt0 : List.map (fun p => p * (([f64 1, f64 1] : List F64).length : ℚ))
      [(1:ℚ)/2, 1/2] = [1, 1] := by
    norm_num
  rw [hpt0, tab_pair]
  have hent : entropyAcc [(1:ℚ)/2, 1/2] = some 1 := by
    rw [entropyAcc_eq _ (by norm_num)]
    norm_num [logb_two_half]
  rw [hent]

/-- The node a single transition with unit weight produces. -/
noncomputable def nodeOne : MarkovNode :=
  { value := ng "ab", transitions := [ng "bc"], dist := dist1,
    entropy := weight_entropy [1] }

theorem node_one : MarkovNode.new (ng "ab") [ng "bc"] [1] = some nodeOne := by
  rw [MarkovNode.new, wai_one]
  rfl

/-! ## C2 — the alias tables reproduce the input distribution -/

/-- C2: for every weight vector accepted by `AliasDistribution::new`, the
constructed probability and alias tables reproduce the normalized input
distribution exactly: for each index `k`, the probability that `choice`
returns `k` — `probability_table[k]/n` plus the sum over all `j` with
`alias_table[j] = k` of `(1 − probability_table[j])/n`, with `i` uniform in
`[0,n)` and `y` uniform in `[0,1)` — equals `weights[k]/total` (the exact
rational model realises "within floating-point tolerance" as equality). -/
theorem C2_choice_distribution (ws : List F64) (d : AliasDistribution)
    (hok : AliasDistribution.new ws = .ok d) :
    d.size = ws.length ∧
    (∀ k, k < ws.length →
      choiceMass d k = (ws.map F64.toQ).getD k 0 / (ws.map F64.toQ).sum) := by
  obtain ⟨h1, _, _, _, h5⟩ := alias_new_ok_spec ws d hok
  exact ⟨h1, h5⟩

/-- Witness for C2 at the concrete weight vector `[1.0, 1.0]`, index 0. -/
theorem C2_choice_distribution_witness :
    ({ probability_table := [1, 1], alias_table := [0, 1], entropy := some 1 } :
      AliasDistribution).size = ([f64 1, f64 1] : List F64).length ∧
    choiceMass
      { probability_table := [1, 1], alias_table := [0, 1], entropy := some 1 } 0 =
      (([f64 1, f64 1]).map F64.toQ).getD 0 0 / (([f64 1, f64 1]).map F64.toQ).sum := by
  have h := C2_choice_distribution [f64 1, f64 1] _ alias_new_pair
  exact ⟨h.1, h.2 0 (by norm_num)⟩

/-! ## C10 — sampling always stays in bounds -/

/-- C10: for every sampler successfully constructed from `n` weights, every
alias-table entry is an index strictly less than `n`, `choice` always
returns an index strictly less than `n`, and the indexing of a node's
transition list in `MarkovNode::next` is always in bounds (the sampled
index names an actual member of the transition list). -/
theorem C10_choice_in_bounds :
    (∀ (ws : List F64) (d : AliasDistribution), AliasDistribution.new ws = .ok d →
      0 < d.size ∧ (∀ k, k < d.size → d.alias_table.getD k 0 < d.size) ∧
      (∀ (r : ℕ) (y : ℚ), d.choice r y < d.size)) ∧
    (∀ (v : Ngram) (values : List Ngram) (weights : List ℚ) (nd : MarkovNode),
      MarkovNode.new v values weights = some nd → values.length = weights.length →
      ∀ (r : ℕ) (y : ℚ), nd.next r y ∈ nd.transitions) := by
  constructor
  · intro ws d hok
    obtain ⟨_, _, h3, h4, _⟩ := alias_new_ok_spec ws d hok
    exact ⟨h3, h4, fun r y => choice_lt d h3 h4 r y⟩
  · intro v values weights nd hnd hlen r y
    rw [MarkovNode.new] at hnd
    cases hw : waiNew weights with
    | none =>
      rw [hw] at hnd
      exact absurd hnd (by simp)
    | some d0 =>
      rw [hw] at hnd
      have hnd' := Option.some.inj (by simpa using hnd)
      obtain ⟨hsz, _, hpos, hbd, _⟩ := waiNew_ok_spec weights d0 hw
      have htr : nd.transitions = values := by rw [← hnd']
      have hdist : nd.dist = d0 := by rw [← hnd']
      rw [MarkovNode.next, htr, hdist]
      have hc : d0.choice r y < values.length := by
        rw [hlen, ← hsz]
        exact choice_lt d0 hpos hbd r y
      rw [List.getD_eq_getElem _ _ hc]
      exact List.getElem_mem _

/-- Witness for C10 at a concrete sampler and a concrete node. -/
theorem C10_choice_in_bounds_witness :
    ({ probability_table := [1, 1], alias_table := [0, 1], entropy := some 1 } :
      AliasDistribution).choice 5 (1/3) <
      ({ probability_table := [1, 1], alias_table := [0, 1], entropy := some 1 } :
        AliasDistribution).size ∧
    nodeOne.next 7 (2/3) ∈ nodeOne.transitions :=
  ⟨(C10_choice_in_bounds.1 [f64 1, f64 1] _ alias_new_pair).2.2 5 (1/3),
   C10_choice_in_bounds.2 (ng "ab") [ng "bc"] [1] nodeOne node_one rfl 7 (2/3)⟩

/-! ## Counting-table lemmas -/

theorem bump_alookup {α : Type} [DecidableEq α] (m : List (α × ℕ)) (k g : α) :
    alookup 0 (bump m k) g = alookup 0 m g + (if k = g then 1 else 0) := by
  induction m with
  | nil =>
    by_cases h : k = g
    · simp [bump, alookup, h]
    · simp [bump, alookup, h]
  | cons pr t ih =>
    obtain ⟨q, c⟩ := pr
    by_cases h1 : q = k
    · subst h1
      by_cases h2 : q = g
      · simp [bump, alookup, h2]
      · simp [bump, alookup, h2]
    · by_cases h2 : q = g
      · subst h2
        have h3 : ¬(k = q) := fun h => h1 h.symm
        simp [bump, alookup, h1, h3]
      · simp [bump, alookup, h1, h2, ih]

theorem bump_keys_mem {α : Type} [DecidableEq α] (m : List (α × ℕ)) (k x : α) :
    x ∈ (bump m k).map Prod.fst ↔ x ∈ m.map Prod.fst ∨ x = k := by
  induction m with
  | nil => simp [bump]
  | cons pr t ih =>
    obtain ⟨q, c⟩ := pr
    by_cases h1 : q = k
    · subst h1
      simp [bump]
      tauto
    · simp [bump, h1, ih]
      tauto

theorem bump_mem_val {α : Type} [DecidableEq α] (m : List (α × ℕ)) (k : α)
    (h : ∀ pr ∈ m, 0 < pr.2) : ∀ pr ∈ bump m k, 0 < pr.2 := by
  induction m with
  | nil =>
    intro pr hpr
    simp [bump] at hpr
    simp [hpr]
  | cons hd t ih =>
    obtain ⟨q, c⟩ := hd
    by_cases h1 : q = k
    · subst h1
      intro pr hpr
      simp [bump] at hpr
      rcases hpr with rfl | hpr
      · simp
      · exact h pr (by simp [hpr])
    · intro pr hpr
      simp [bump, h1] at hpr
      rcases hpr with rfl | hpr
      · exact h (q, c) (by simp)
      · exact ih (fun pr' hpr' => h pr' (by simp [hpr'])) pr hpr

theorem bump_ne_nil {α : Type} [DecidableEq α] (m : List (α × ℕ)) (k : α) :
    bump m k ≠ [] := by
  cases m with
  | nil => simp [bump]
  | cons hd t =>
    obtain ⟨q, c⟩ := hd
    by_cases h1 : q = k
    · simp [bump, h1]
    · simp [bump, h1]

theorem bumpTrans_lookup (m : List (Ngram × List (Ngram × ℕ))) (s t s' t' : Ngram) :
    lookupTrans (bumpTrans m s t) s' t' =
      lookupTrans m s' t' + (if s = s' ∧ t = t' then 1 else 0) := by
  induction m with
  | nil =>
    by_cases h1 : s = s'
    · subst h1
      by_cases h2 : t = t'
      · simp [bumpTrans, lookupTrans, alookup, h2]
      · simp [bumpTrans, lookupTrans, alookup, h2]
    · simp [bumpTrans, lookupTrans, alookup, h1]
  | cons pr m0 ih =>
    obtain ⟨s0, inner⟩ := pr
    by_cases h1 : s0 = s
    · subst h1
      by_cases h2 : s0 = s'
      · subst h2
        simp [bumpTrans, lookupTrans, alookup, bump_alookup]
      · have h3 : ¬(s0 = s' ∧ t = t') := fun h => h2 h.1
        simp [bumpTrans, lookupTrans, alookup, h2, h3]
    · by_cases h2 : s0 = s'
      · subst h2
        have h3 : ¬(s = s0 ∧ t = t') := fun h => h1 h.1.symm
        simp [bumpTrans, lookupTrans, alookup, h1, h3]
      · have hlt : lookupTrans ((s0, inner) :: m0) s' t' = lookupTrans m0 s' t' := by
          simp [lookupTrans, alookup, h2]
        rw [hlt, ← ih]
        simp [bumpTrans, lookupTrans, alookup, h1, h2]

theorem bumpTrans_keys_mem (m : List (Ngram × List (Ngram × ℕ))) (s t x : Ngram) :
    x ∈ (bumpTrans m s t).map Prod.fst ↔ x ∈ m.map Prod.fst ∨ x = s := by
  induction m with
  | nil => simp [bumpTrans]
  | cons pr m0 ih =>
    obtain ⟨s0, inner⟩ := pr
    by_cases h1 : s0 = s
    · subst h1
      simp [bumpTrans]
      tauto
    · simp [bumpTrans, h1, ih]
      tauto

theorem bumpTrans_wf (m : List (Ngram × List (Ngram × ℕ))) (s t : Ngram)
    (h : ∀ pr ∈ m, pr.2 ≠ [] ∧ ∀ q ∈ pr.2, 0 < q.2) :
    ∀ pr ∈ bumpTrans m s t, pr.2 ≠ [] ∧ ∀ q ∈ pr.2, 0 < q.2 := by
  induction m with
  | nil =>
    intro pr hpr
    simp [bumpTrans] at hpr
    subst hpr
    simp
  | cons hd m0 ih =>
    obtain ⟨s0, inner⟩ := hd
    by_cases h1 : s0 = s
    · subst h1
      intro pr hpr
      simp [bumpTrans] at hpr
      rcases hpr with rfl | hpr
      · refine ⟨bump_ne_nil inner t, ?_⟩
        exact bump_mem_val inner t (fun q hq => (h (s0, inner) (by simp)).2 q hq)
      · exact h pr (by simp [hpr])
    · intro pr hpr
      simp [bumpTrans, h1] at hpr
      rcases hpr with rfl | hpr
      · exact h (s0, inner) (by simp)
      · exact ih (fun pr' hpr' => h pr' (by simp [hpr'])) pr hpr

theorem bumpTrans_pairs (m : List (Ngram × List (Ngram × ℕ))) (s t : Ngram) :
    ∀ pr ∈ bumpTrans m s t, ∀ q ∈ pr.2,
      (∃ pr' ∈ m, pr'.1 = pr.1 ∧ q.1 ∈ pr'.2.map Prod.fst) ∨
        (pr.1 = s ∧ q.1 = t) := by
  induction m with
  | nil =>
    intro pr hpr q hq
    simp [bumpTrans] at hpr
    subst hpr
    simp at hq
    subst hq
    simp
  | cons hd m0 ih =>
    obtain ⟨s0, inner⟩ := hd
    by_cases h1 : s0 = s
    · subst h1
      intro pr hpr q hq
      simp [bumpTrans] at hpr
      rcases hpr with rfl | hpr
      · have := (bump_keys_mem inner t q.1).mp (List.mem_map_of_mem Prod.fst hq)
        rcases this with hmem | rfl
        · exact Or.inl ⟨(s0, inner), by simp, rfl, hmem⟩
        · exact Or.inr ⟨rfl, rfl⟩
      · exact Or.inl ⟨pr, by simp [hpr], rfl, List.mem_map_of_mem Prod.fst hq⟩
    · intro pr hpr q hq
      simp [bumpTrans, h1] at hpr
      rcases hpr with rfl | hpr
      · exact Or.inl ⟨(s0, inner), by simp, rfl, List.mem_map_of_mem Prod.fst hq⟩
      · rcases ih pr hpr q hq with ⟨pr', hpr', heq, hmem⟩ | hst
        · exact Or.inl ⟨pr', by simp [hpr'], heq, hmem⟩
        · exact Or.inr hst

theorem foldTrans_lookup (pairs : List (Ngram × Ngram))
    (m0 : List (Ngram × List (Ngram × ℕ))) (s t : Ngram) :
    lookupTrans (pairs.foldl (fun m p => bumpTrans m p.1 p.2) m0) s t =
      lookupTrans m0 s t + pairs.count (s, t) := by
  induction pairs generalizing m0 with
  | nil => simp
  | cons p rest ih =>
    obtain ⟨ps, pt⟩ := p
    rw [List.foldl_cons, ih, bumpTrans_lookup, List.count_cons]
    have : ((s, t) = (ps, pt)) ↔ (ps = s ∧ pt = t) := by
      constructor
      · intro h
        injection h with h1 h2
        exact ⟨h1.symm, h2.symm⟩
      · rintro ⟨rfl, rfl⟩
        rfl
    by_cases h : ps = s ∧ pt = t
    · simp [h, this]
      omega
    · simp [h, this]

theorem foldTrans_keys (pairs : List (Ngram × Ngram))
    (m0 : List (Ngram × List (Ngram × ℕ))) (x : Ngram) :
    x ∈ (pairs.foldl (fun m p => bumpTrans m p.1 p.2) m0).map Prod.fst ↔
      x ∈ m0.map Prod.fst ∨ x ∈ pairs.map Prod.fst := by
  induction pairs generalizing m0 with
  | nil => simp
  | cons p rest ih =>
    rw [List.foldl_cons, ih]
    rw [bumpTrans_keys_mem]
    simp
    tauto

theorem foldTrans_wf (pairs : List (Ngram × Ngram))
    (m0 : List (Ngram × List (Ngram × ℕ)))
    (h0 : ∀ pr ∈ m0, pr.2 ≠ [] ∧ ∀ q ∈ pr.2, 0 < q.2) :
    ∀ pr ∈ pairs.foldl (fun m p => bumpTrans m p.1 p.2) m0,
      pr.2 ≠ [] ∧ ∀ q ∈ pr.2, 0 < q.2 := by
  induction pairs generalizing m0 with
  | nil => exact h0
  | cons p rest ih =>
    rw [List.foldl_cons]
    exact ih _ (bumpTrans_wf m0 p.1 p.2 h0)

theorem foldTrans_pairs (pairs : List (Ngram × Ngram))
    (m0 : List (Ngram × List (Ngram × ℕ))) (P : Ngram → Ngram → Prop)
    (h0 : ∀ pr ∈ m0, ∀ q ∈ pr.2, P pr.1 q.1) (hp : ∀ p ∈ pairs, P p.1 p.2) :
    ∀ pr ∈ pairs.foldl (fun m p => bumpTrans m p.1 p.2) m0,
      ∀ q ∈ pr.2, P pr.1 q.1 := by
  induction pairs generalizing m0 with
  | nil => exact h0
  | cons p rest ih =>
    rw [List.foldl_cons]
    refine ih _ ?_ (fun p' hp' => hp p' (by simp [hp']))
    intro pr hpr q hq
    rcases bumpTrans_pairs m0 p.1 p.2 pr hpr q hq with ⟨pr', hpr', heq, hmem⟩ | ⟨he1, he2⟩
    · rcases List.mem_map.mp hmem with ⟨q', hq', hq'eq⟩
      rw [← heq, ← hq'eq]
      exact h0 pr' hpr' q' hq'
    · rw [he1, he2]
      exact hp p (by simp)

theorem cyclicPairs_fst (l : List Ngram) : (cyclicPairs l).map Prod.fst = l := by
  cases l with
  | nil => rfl
  | cons x xs =>
    rw [cyclicPairs, List.map_fst_zip]
    simp

theorem cyclicPairs_snd_mem (l : List Ngram) : ∀ p ∈ cyclicPairs l, p.2 ∈ l := by
  cases l with
  | nil => simp [cyclicPairs]
  | cons x xs =>
    intro p hp
    rw [cyclicPairs] at hp
    have := List.of_mem_zip hp
    rcases this with ⟨_, h2⟩
    rcases List.mem_append.mp h2 with h | h
    · exact List.mem_cons.mpr (Or.inr h)
    · simp at h
      simp [h]

theorem cyclicPairs_last (x : Ngram) (xs : List Ngram) :
    ((x :: xs).getLast (by simp), x) ∈ cyclicPairs (x :: xs) := by
  rw [cyclicPairs]
  have hlen : xs.length < ((x :: xs).zip (xs ++ [x])).length := by
    simp
  have hx1 : xs.length < (x :: xs).length := by simp
  have hx2 : xs.length < (xs ++ [x]).length := by simp
  have hget : ((x :: xs).zip (xs ++ [x]))[xs.length] =
      ((x :: xs)[xs.length], (xs ++ [x])[xs.length]) := List.getElem_zip
  have hlast : (x :: xs)[xs.length] = (x :: xs).getLast (by simp) := by
    rw [List.getLast_eq_getElem]
    simp
  have hwrap : (xs ++ [x])[xs.length] = x := by
    rw [List.getElem_append_right (by omega)]
    simp
  have := List.getElem_mem hlen
  rw [hget, hlast, hwrap] at this
  exact this

theorem foldStart_keys (l : List Ngram) (m0 : List (Ngram × ℕ)) (x : Ngram) :
    x ∈ (l.foldl (fun m g => if wordStart g then bump m g else m) m0).map Prod.fst ↔
      x ∈ m0.map Prod.fst ∨ (x ∈ l ∧ wordStart x = true) := by
  induction l generalizing m0 with
  | nil => simp
  | cons g rest ih =>
    by_cases hw : wordStart g = true
    · rw [List.foldl_cons, if_pos hw, ih, bump_keys_mem]
      constructor
      · rintro ((hm | rfl) | ⟨hr, hws⟩)
        · exact Or.inl hm
        · exact Or.inr ⟨by simp, hw⟩
        · exact Or.inr ⟨by simp [hr], hws⟩
      · rintro (hm | ⟨hgl, hws⟩)
        · exact Or.inl (Or.inl hm)
        · rcases List.mem_cons.mp hgl with rfl | hr
          · exact Or.inl (Or.inr rfl)
          · exact Or.inr ⟨hr, hws⟩
    · rw [List.foldl_cons, if_neg hw, ih]
      constructor
      · rintro (hm | ⟨hr, hws⟩)
        · exact Or.inl hm
        · exact Or.inr ⟨by simp [hr], hws⟩
      · rintro (hm | ⟨hgl, hws⟩)
        · exact Or.inl hm
        · rcases List.mem_cons.mp hgl with rfl | hr
          · exact absurd hws hw
          · exact Or.inr ⟨hr, hws⟩

theorem foldStart_pos (l : List Ngram) (m0 : List (Ngram × ℕ))
    (h0 : ∀ pr ∈ m0, 0 < pr.2) :
    ∀ pr ∈ l.foldl (fun m g => if wordStart g then bump m g else m) m0, 0 < pr.2 := by
  induction l generalizing m0 with
  | nil => exact h0
  | cons g rest ih =>
    rw [List.foldl_cons]
    by_cases hw : wordStart g = true
    · rw [if_pos hw]
      exact ih _ (bump_mem_val m0 g h0)
    · rw [if_neg hw]
      exact ih _ h0

theorem waiNew_pos_some (ws : List ℚ) (hne : ws ≠ []) (hpos : ∀ w ∈ ws, 0 < w) :
    ∃ d, waiNew ws = some d := by
  have hc : ¬(ws = [] ∨ (ws.any fun w => decide (w < 0)) = true ∨ ¬0 < ws.sum) := by
    push_neg
    refine ⟨hne, ?_, List.sum_pos ws hpos hne⟩
    intro hany
    rw [List.any_eq_true] at hany
    rcases hany with ⟨w, hw, hneg⟩
    rw [decide_eq_true_eq] at hneg
    exact absurd hneg (not_lt.mpr (le_of_lt (hpos w hw)))
  have h : waiNew ws ≠ none := by
    rw [waiNew, if_neg hc]
    simp
  exact Option.ne_none_iff_exists'.mp h

theorem markovNode_next_mem (v : Ngram) (values : List Ngram) (weights : List ℚ)
    (nd : MarkovNode) (hnd : MarkovNode.new v values weights = some nd)
    (hlen : values.length = weights.length) :
    ∀ (r : ℕ) (y : ℚ), nd.next r y ∈ nd.transitions := by
  intro r y
  rw [MarkovNode.new] at hnd
  cases hw : waiNew weights with
  | none =>
    rw [hw] at hnd
    exact absurd hnd (by simp)
  | some d0 =>
    rw [hw] at hnd
    have hnd' := Option.some.inj (by simpa using hnd)
    obtain ⟨hsz, _, hpos, hbd, _⟩ := waiNew_ok_spec weights d0 hw
    have htr : nd.transitions = values := by rw [← hnd']
    have hdist : nd.dist = d0 := by rw [← hnd']
    rw [MarkovNode.next, htr, hdist]
    have hc : d0.choice r y < values.length := by
      rw [hlen, ← hsz]
      exact choice_lt d0 hpos hbd r y
    rw [List.getD_eq_getElem _ _ hc]
    exact List.getElem_mem _

theorem markovNode_new_fields (v : Ngram) (values : List Ngram) (weights : List ℚ)
    (nd : MarkovNode) (hnd : MarkovNode.new v values weights = some nd) :
    nd.value = v ∧ nd.transitions = values ∧ nd.entropy = weight_entropy weights := by
  rw [MarkovNode.new] at hnd
  cases hw : waiNew weights with
  | none =>
    rw [hw] at hnd
    exact absurd hnd (by simp)
  | some d0 =>
    rw [hw] at hnd
    have hnd' := Option.some.inj (by simpa using hnd)
    refine ⟨by rw [← hnd'], by rw [← hnd'], by rw [← hnd']⟩

theorem buildNodes_some (m : List (Ngram × List (Ngram × ℕ)))
    (hwf : ∀ pr ∈ m, pr.2 ≠ [] ∧ ∀ q ∈ pr.2, 0 < q.2) :
    ∃ nodes, buildNodes m = some (nodes, tableEntropy m) ∧
      nodes.map Prod.fst = m.map Prod.fst ∧
      (∀ pr ∈ nodes, pr.2.value = pr.1 ∧
        (∀ (r : ℕ) (y : ℚ), pr.2.next r y ∈ pr.2.transitions) ∧
        ∃ pr' ∈ m, pr'.1 = pr.1 ∧ pr.2.transitions = pr'.2.map Prod.fst ∧
          pr.2.entropy = weight_entropy (pr'.2.map (fun c => (c.2 : ℚ)))) := by
  induction m with
  | nil => exact ⟨[], by simp [buildNodes, tableEntropy], by simp, by simp⟩
  | cons pr rest ih =>
    obtain ⟨g, counts⟩ := pr
    obtain ⟨hne, hpos⟩ := hwf (g, counts) (by simp)
    have hwpos : ∀ w ∈ counts.map (fun c => (c.2 : ℚ)), 0 < w := by
      intro w hw
      rcases List.mem_map.mp hw with ⟨q, hq, rfl⟩
      exact_mod_cast hpos q hq
    have hwne : counts.map (fun c => ((c.2 : ℕ) : ℚ)) ≠ [] := by simpa using hne
    obtain ⟨d0, hd0⟩ := waiNew_pos_some _ hwne hwpos
    have hnd : MarkovNode.new g (counts.map Prod.fst)
        (counts.map (fun c => (c.2 : ℚ))) =
        some { value := g, transitions := counts.map Prod.fst, dist := d0,
               entropy := weight_entropy (counts.map (fun c => (c.2 : ℚ))) } := by
      rw [MarkovNode.new, hd0]
      rfl
    obtain ⟨nodes', hbn, hkeys, hprops⟩ :=
      ih (fun pr' hpr' => hwf pr' (by simp [hpr']))
    refine ⟨(g, { value := g, transitions := counts.map Prod.fst, dist := d0,
                  entropy := weight_entropy (counts.map (fun c => (c.2 : ℚ))) }) :: nodes',
      ?_, by simp [hkeys], ?_⟩
    · rw [buildNodes, hnd, hbn]
      simp [tableEntropy]
    · intro pr hpr
      rcases List.mem_cons.mp hpr with rfl | h
      · refine ⟨rfl, ?_, (g, counts), by simp, rfl, rfl, rfl⟩
        exact markovNode_next_mem g _ _ _ hnd (by simp)
      · obtain ⟨h1, h2, pr', hpr', h3⟩ := hprops pr h
        exact ⟨h1, h2, pr', by simp [hpr'], h3⟩

theorem startingCounts_wf (l : List Ngram) :
    (∀ x, x ∈ (startingCounts l).map Prod.fst ↔ (x ∈ l ∧ wordStart x = true)) ∧
    (∀ pr ∈ startingCounts l, 0 < pr.2) := by
  constructor
  · intro x
    rw [startingCounts, foldStart_keys]
    simp
  · exact foldStart_pos l [] (by simp)

theorem transitionCounters_wf (l : List Ngram) :
    (∀ x, x ∈ (transitionCounters l).map Prod.fst ↔ x ∈ l) ∧
    (∀ pr ∈ transitionCounters l, pr.2 ≠ [] ∧ ∀ q ∈ pr.2, 0 < q.2) ∧
    (∀ pr ∈ transitionCounters l, ∀ q ∈ pr.2, (pr.1, q.1) ∈ cyclicPairs l) := by
  refine ⟨?_, ?_, ?_⟩
  · intro x
    rw [transitionCounters, foldTrans_keys]
    simp [cyclicPairs_fst l]
  · exact foldTrans_wf _ [] (by simp)
  · exact foldTrans_pairs _ [] (fun s t => (s, t) ∈ cyclicPairs l) (by simp)
      (fun p hp => hp)

theorem new_no_start_none (g : Ngram) (gs : List Ngram)
    (hns : ∀ x ∈ g :: gs, wordStart x = false) :
    PassphraseMarkovChain.new (g :: gs) = none := by
  have hsc : startingCounts (g :: gs) = [] := by
    rcases hh : startingCounts (g :: gs) with _ | ⟨pr, t⟩
    · rfl
    · have : pr.1 ∈ (startingCounts (g :: gs)).map Prod.fst := by
        rw [hh]
        simp
      rw [(startingCounts_wf (g :: gs)).1 pr.1] at this
      rw [hns pr.1 this.1] at this
      exact absurd this.2 (by simp)
  rw [PassphraseMarkovChain.new, hsc]
  rfl

theorem new_cons_eq (g : Ngram) (gs : List Ngram)
    (hstart : ∃ x ∈ g :: gs, wordStart x = true) :
    ∃ nodes sd,
      buildNodes (transitionCounters (g :: gs)) =
        some (nodes, totalEntropyOf (g :: gs)) ∧
      PassphraseMarkovChain.new (g :: gs) =
        some (if totalEntropyOf (g :: gs) = 0 then .error .zeroEntropy
          else if startingEntropyOf (g :: gs) = 0 then
            .error .zeroStartOfWordEntropy
          else .ok { nodes := nodes,
                     startingNgrams := (startingCounts (g :: gs)).map Prod.fst,
                     startingDist := sd,
                     startingEntropy := startingEntropyOf (g :: gs) }) := by
  obtain ⟨x, hx, hwx⟩ := hstart
  have hxk : x ∈ (startingCounts (g :: gs)).map Prod.fst :=
    ((startingCounts_wf (g :: gs)).1 x).mpr ⟨hx, hwx⟩
  have hscne : startingCounts (g :: gs) ≠ [] := by
    intro h
    rw [h] at hxk
    simp at hxk
  have hwne : startingWeightsOf (g :: gs) ≠ [] := by
    rw [startingWeightsOf]
    simpa using hscne
  have hwpos : ∀ w ∈ startingWeightsOf (g :: gs), 0 < w := by
    intro w hw
    rcases List.mem_map.mp hw with ⟨q, hq, rfl⟩
    exact_mod_cast (startingCounts_wf (g :: gs)).2 q hq
  obtain ⟨sd, hsd⟩ := waiNew_pos_some _ hwne hwpos
  obtain ⟨nodes, hbn, _, _⟩ :=
    buildNodes_some (transitionCounters (g :: gs))
      ((transitionCounters_wf (g :: gs)).2.1)
  refine ⟨nodes, sd, ?_, ?_⟩
  · rw [hbn, totalEntropyOf]
  · rw [PassphraseMarkovChain.new]
    rw [show (startingCounts (g :: gs)).map (fun p => ((p.2 : ℕ) : ℚ)) =
      startingWeightsOf (g :: gs) from rfl]
    rw [hsd]
    rw [show buildNodes (transitionCounters (g :: gs)) =
      some (nodes, totalEntropyOf (g :: gs)) from by rw [hbn, totalEntropyOf]]
    simp only [startingEntropyOf]
    split_ifs
    all_goals rfl

/-! ## C4 — error precedence of `PassphraseMarkovChain::new` -/

/-- C4 (amended): provided at least one input n-gram begins with a space
(otherwise construction panics before any entropy check — see the
counterexample), `new` returns `NoNgrams` iff the input is empty, then
`ZeroEntropy` iff the total node entropy is 0 (taking precedence when both
entropies are zero), then `ZeroStartOfWordEntropy` iff the starting entropy
is 0, and succeeds otherwise. -/
theorem C4_error_precedence (l : List Ngram) :
    (PassphraseMarkovChain.new l = some (.error .noNgrams) ↔ l = []) ∧
    ((∃ x ∈ l, wordStart x = true) →
      ((PassphraseMarkovChain.new l = some (.error .zeroEntropy) ↔
          totalEntropyOf l = 0) ∧
       (PassphraseMarkovChain.new l = some (.error .zeroStartOfWordEntropy) ↔
          (totalEntropyOf l ≠ 0 ∧ startingEntropyOf l = 0)) ∧
       ((∃ c, PassphraseMarkovChain.new l = some (.ok c)) ↔
          (totalEntropyOf l ≠ 0 ∧ startingEntropyOf l ≠ 0)))) := by
  cases l with
  | nil =>
    constructor
    · exact ⟨fun _ => rfl, fun _ => rfl⟩
    · rintro ⟨x, hx, _⟩
      simp at hx
  | cons g gs =>
    by_cases hstart : ∃ x ∈ g :: gs, wordStart x = true
    · obtain ⟨nodes, sd, hbn, hnew⟩ := new_cons_eq g gs hstart
      constructor
      · rw [hnew]
        constructor
        · intro h
          split_ifs at h <;> simp at h
        · intro h
          exact absurd h (by simp)
      · intro _
        refine ⟨?_, ?_, ?_⟩
        · rw [hnew]
          by_cases h1 : totalEntropyOf (g :: gs) = 0
          · simp [h1]
          · by_cases h2 : startingEntropyOf (g :: gs) = 0
            · simp [h1, h2]
            · simp [h1, h2]
        · rw [hnew]
          by_cases h1 : totalEntropyOf (g :: gs) = 0
          · simp [h1]
          · by_cases h2 : startingEntropyOf (g :: gs) = 0
            · simp [h1, h2]
            · simp [h1, h2]
        · rw [hnew]
          by_cases h1 : totalEntropyOf (g :: gs) = 0
          · simp [h1]
          · by_cases h2 : startingEntropyOf (g :: gs) = 0
            · simp [h1, h2]
            · simp [h1, h2]
    · have hns : ∀ x ∈ g :: gs, wordStart x = false := by
        intro x hx
        by_contra hc
        exact hstart ⟨x, hx, by simpa using hc⟩
      have hnone := new_no_start_none g gs hns
      constructor
      · rw [hnone]
        constructor
        · intro h
          exact absurd h (by simp)
        · intro h
          simp at h
      · intro h
        exact absurd h hstart

/-- Witness for C4 at the concrete corpus `ngrams4`. -/
theorem C4_error_precedence_witness :
    (∃ c, PassphraseMarkovChain.new ngrams4 = some (.ok c)) ↔
      (totalEntropyOf ngrams4 ≠ 0 ∧ startingEntropyOf ngrams4 ≠ 0) :=
  ((C4_error_precedence ngrams4).2 (by decide)).2.2

/-- Counterexample to C4 as stated: `["ab"]` is non-empty with total node
entropy 0, so the claim requires `Err(ZeroEntropy)`; but the input has no
word-start n-gram, so the source's
`WeightedAliasIndex::new(starting_ngram_weights).unwrap()` (line 111,
executed *before* the entropy checks) panics on the empty weight vector —
modelled as `none` — and no `Result` is ever returned. -/
theorem C4_zero_entropy_counterexample :
    [ng "ab"] ≠ ([] : List Ngram) ∧ totalEntropyOf [ng "ab"] = 0 ∧
    PassphraseMarkovChain.new [ng "ab"] ≠ some (.error .zeroEntropy) ∧
    PassphraseMarkovChain.new [ng "ab"] = none := by
  have hnone := new_no_start_none (ng "ab") [] (by decide)
  refine ⟨by simp, ?_, ?_, hnone⟩
  · have htc : transitionCounters [ng "ab"] = [(ng "ab", [(ng "ab", 1)])] := by
      rfl
    rw [totalEntropyOf, htc]
    simp [tableEntropy, weight_entropy_one]
  · rw [hnone]
    simp

/-! ## C7 — construction can panic instead of returning a typed error -/

/-- C7 (code bug): the claim says construction never panics and that a
non-empty sequence with no word-start n-gram yields the typed
`ZeroStartOfWordEntropy` error.  In the code,
`WeightedAliasIndex::new(starting_ngram_weights).unwrap()` runs before the
`starting_entropy == 0.0` check, and for such inputs the weight vector is
empty, so `new` returns `Err`, the `unwrap` panics, and no typed error is
returned: on `["ab"]` the model yields `none` (panic), not
`some (Err ZeroStartOfWordEntropy))`. -/
theorem C7_no_wordstart_panics :
    (∀ x ∈ [ng "ab"], wordStart x = false) ∧ [ng "ab"] ≠ ([] : List Ngram) ∧
    PassphraseMarkovChain.new [ng "ab"] = none ∧
    PassphraseMarkovChain.new [ng "ab"] ≠
      some (.error .zeroStartOfWordEntropy) := by
  have hnone := new_no_start_none (ng "ab") [] (by decide)
  refine ⟨by decide, by simp, hnone, ?_⟩
  rw [hnone]
  simp

theorem lookupNode_isSome (c : PassphraseMarkovChain) (g : Ngram) :
    (lookupNode c g).isSome = true ↔ g ∈ c.nodes.map Prod.fst := by
  rw [lookupNode, Option.isSome_map']
  rw [List.find?_isSome]
  constructor
  · rintro ⟨pr, hpr, hp⟩
    rw [decide_eq_true_eq] at hp
    rw [← hp]
    exact List.mem_map_of_mem Prod.fst hpr
  · intro h
    rcases List.mem_map.mp h with ⟨pr, hpr, rfl⟩
    exact ⟨pr, hpr, by simp⟩

/-! ## C6 — cyclic transition counting and lookup totality -/

/-- C6: the transition table counts exactly the consecutive pairs of the
cyclic scan (the last n-gram's successor being the first); every distinct
input n-gram has an entry with at least one positive-count transition;
every recorded source, target, and word-start n-gram is an input n-gram;
and in a successfully constructed chain every starting n-gram and every
node's transition target is a key of the node map, so the internal node
lookups always find a node. -/
theorem C6_transition_table_closure (l : List Ngram) :
    (∀ s t, lookupTrans (transitionCounters l) s t = (cyclicPairs l).count (s, t)) ∧
    (∀ x xs, l = x :: xs → ((x :: xs).getLast (by simp), x) ∈ cyclicPairs l) ∧
    (∀ g ∈ l, ∃ pr ∈ transitionCounters l,
      pr.1 = g ∧ pr.2 ≠ [] ∧ ∀ q ∈ pr.2, 0 < q.2) ∧
    (∀ pr ∈ transitionCounters l, pr.1 ∈ l ∧ ∀ q ∈ pr.2, q.1 ∈ l) ∧
    (∀ pr ∈ startingCounts l, pr.1 ∈ l ∧ wordStart pr.1 = true) ∧
    (∀ c, PassphraseMarkovChain.new l = some (.ok c) →
      (∀ g ∈ c.startingNgrams, (lookupNode c g).isSome = true) ∧
      (∀ pr ∈ c.nodes, ∀ tg ∈ pr.2.transitions,
        (lookupNode c tg).isSome = true)) := by
  obtain ⟨hkeys, hwf, hpairs⟩ := transitionCounters_wf l
  obtain ⟨hskeys, hspos⟩ := startingCounts_wf l
  refine ⟨?_, ?_, ?_, ?_, ?_, ?_⟩
  · intro s t
    rw [transitionCounters, foldTrans_lookup]
    simp [lookupTrans, alookup]
  · intro x xs hl
    subst hl
    exact cyclicPairs_last x xs
  · intro g hg
    have := (hkeys g).mpr hg
    rcases List.mem_map.mp this with ⟨pr, hpr, rfl⟩
    exact ⟨pr, hpr, rfl, (hwf pr hpr).1, (hwf pr hpr).2⟩
  · intro pr hpr
    refine ⟨(hkeys pr.1).mp (List.mem_map_of_mem Prod.fst hpr), ?_⟩
    intro q hq
    exact cyclicPairs_snd_mem l _ (hpairs pr hpr q hq)
  · intro pr hpr
    exact (hskeys pr.1).mp (List.mem_map_of_mem Prod.fst hpr)
  · intro c hc
    cases l with
    | nil => exact absurd hc (by simp [PassphraseMarkovChain.new])
    | cons g gs =>
      by_cases hstart : ∃ x ∈ g :: gs, wordStart x = true
      · obtain ⟨nodes, sd, hbn, hnew⟩ := new_cons_eq g gs hstart
        rw [hnew] at hc
        split_ifs at hc with h1 h2
        · exact absurd hc (by simp)
        · exact absurd hc (by simp)
        · have hc' := Except.ok.inj (Option.some.inj hc)
          obtain ⟨nodes', hbn', hnkeys, hnprops⟩ :=
            buildNodes_some (transitionCounters (g :: gs)) hwf
          have hne : nodes' = nodes := by
            rw [totalEntropyOf] at hbn
            rw [hbn] at hbn'
            exact ((Prod.mk.injEq _ _ _ _).mp (Option.some.inj hbn')).1.symm
          subst hne
          have hcnodes : c.nodes = nodes' := by rw [← hc']
          have hcstart : c.startingNgrams =
              (startingCounts (g :: gs)).map Prod.fst := by rw [← hc']
          have hkey_of_mem : ∀ x ∈ (g :: gs : List Ngram),
              (lookupNode c x).isSome = true := by
            intro x hx
            rw [lookupNode_isSome, hcnodes, hnkeys]
            exact (hkeys x).mpr hx
          constructor
          · intro x hx
            rw [hcstart] at hx
            rcases List.mem_map.mp hx with ⟨pr, hpr, rfl⟩
            exact hkey_of_mem pr.1 ((hskeys pr.1).mp
              (List.mem_map_of_mem Prod.fst hpr)).1
          · intro pr hpr tg htg
            rw [hcnodes] at hpr
            obtain ⟨_, _, pr', hpr', _, htrans, _⟩ := hnprops pr hpr
            rw [htrans] at htg
            rcases List.mem_map.mp htg with ⟨q, hq, rfl⟩
            exact hkey_of_mem q.1
              (cyclicPairs_snd_mem (g :: gs) _ (hpairs pr' hpr' q hq))
      · have hnone := new_no_start_none g gs (by
          intro x hx
          by_contra hcon
          exact hstart ⟨x, hx, by simpa using hcon⟩)
        rw [hnone] at hc
        exact absurd hc (by simp)

/-- Witness for C6 at the concrete corpus `ngrams4`. -/
theorem C6_transition_table_closure_witness :
    lookupTrans (transitionCounters ngrams4) (ng " a ") (ng " b ") =
      (cyclicPairs ngrams4).count (ng " a ", ng " b ") ∧
    ((ng " a " :: [ng " b ", ng " a ", ng " c "]).getLast (by simp),
      ng " a ") ∈ cyclicPairs ngrams4 ∧
    (∃ pr ∈ transitionCounters ngrams4,
      pr.1 = ng " a " ∧ pr.2 ≠ [] ∧ ∀ q ∈ pr.2, 0 < q.2) :=
  ⟨(C6_transition_table_closure ngrams4).1 (ng " a ") (ng " b "),
   (C6_transition_table_closure ngrams4).2.1 (ng " a ")
     [ng " b ", ng " a ", ng " c "] rfl,
   (C6_transition_table_closure ngrams4).2.2.1 (ng " a ") (by decide)⟩

/-! ## The passphrase loop: step lemmas and trace specification -/

theorem passphraseLoop_zero (c : PassphraseMarkovChain) (minE : ℝ)
    (rng : ℕ → ℕ × ℚ) (cur : Ngram) (sel : List Ngram) (e : ℝ) (k : ℕ) :
    passphraseLoop c minE rng 0 cur sel e k = none := rfl

theorem passphraseLoop_stop (c : PassphraseMarkovChain) (minE : ℝ)
    (rng : ℕ → ℕ × ℚ) (fuel : ℕ) (cur : Ngram) (sel : List Ngram) (e : ℝ)
    (k : ℕ) (h : ℝ) (hent : ngramEntropy c cur = some h)
    (hcond : minE ≤ e + h ∧ cur.getLast? = some ' ') :
    passphraseLoop c minE rng (fuel + 1) cur sel e k =
      some (sel ++ [cur], e + h) := by
  simp only [passphraseLoop, hent]
  rw [if_pos hcond]

theorem passphraseLoop_cont (c : PassphraseMarkovChain) (minE : ℝ)
    (rng : ℕ → ℕ × ℚ) (fuel : ℕ) (cur : Ngram) (sel : List Ngram) (e : ℝ)
    (k : ℕ) (h : ℝ) (nxt : Ngram) (hent : ngramEntropy c cur = some h)
    (hcond : ¬(minE ≤ e + h ∧ cur.getLast? = some ' '))
    (hnext : getNextNgram c cur (rng k).1 (rng k).2 = some nxt) :
    passphraseLoop c minE rng (fuel + 1) cur sel e k =
      passphraseLoop c minE rng fuel nxt (sel ++ [cur]) (e + h) (k + 1) := by
  simp only [passphraseLoop, hent]
  rw [if_neg hcond, hnext]

theorem passphraseLoop_trace (c : PassphraseMarkovChain) (minE : ℝ)
    (rng : ℕ → ℕ × ℚ) :
    ∀ (fuel : ℕ) (cur : Ngram) (sel : List Ngram) (e : ℝ) (k : ℕ)
      (out : List Ngram × ℝ),
      passphraseLoop c minE rng fuel cur sel e k = some out →
      ∃ suf es, out.1 = sel ++ suf ∧ suf ≠ [] ∧
        suf.mapM (fun g => ngramEntropy c g) = some es ∧
        out.2 = e + es.sum ∧ minE ≤ out.2 ∧
        ∃ lastg, suf.getLast? = some lastg ∧ lastg.getLast? = some ' ' := by
  intro fuel
  induction fuel with
  | zero =>
    intro cur sel e k out hrun
    exact absurd hrun (by simp [passphraseLoop_zero])
  | succ n ih =>
    intro cur sel e k out hrun
    cases hent : ngramEntropy c cur with
    | none =>
      simp only [passphraseLoop, hent] at hrun
      exact absurd hrun (by simp)
    | some h =>
      by_cases hcond : minE ≤ e + h ∧ cur.getLast? = some ' '
      · rw [passphraseLoop_stop c minE rng n cur sel e k h hent hcond] at hrun
        have hout := (Option.some.inj hrun).symm
        subst hout
        refine ⟨[cur], [h], rfl, by simp, ?_, by simp, ?_, cur, rfl, hcond.2⟩
        · rw [List.mapM_cons, hent]
          rfl
        · simpa using hcond.1
      · cases hnext : getNextNgram c cur (rng k).1 (rng k).2 with
        | none =>
          simp only [passphraseLoop, hent] at hrun
          rw [if_neg hcond, hnext] at hrun
          exact absurd hrun (by simp)
        | some nxt =>
          rw [passphraseLoop_cont c minE rng n cur sel e k h nxt hent hcond
            hnext] at hrun
          obtain ⟨suf, es, h1, h2, h3, h4, h5, lastg, h6, h7⟩ :=
            ih nxt (sel ++ [cur]) (e + h) (k + 1) out hrun
          refine ⟨cur :: suf, h :: es, ?_, by simp, ?_, ?_, h5, lastg, ?_, h7⟩
          · rw [h1, List.append_assoc]
            rfl
          · rw [List.mapM_cons, hent, h3]
            rfl
          · rw [h4, List.sum_cons]
            ring
          · rcases suf with _ | ⟨a, l⟩
            · exact absurd rfl h2
            · rw [List.getLast?_cons_cons]
              exact h6

/-- C1: whenever `passphrase` returns, the returned entropy is the chain's
starting entropy plus the sum of the selected nodes' entropies in traversal
order, it is at least `min_entropy`, the last selected n-gram ends with a
space, and the string is the first character of each selected n-gram
followed by the tail of the last one, whitespace-trimmed (equivalently:
the heads of all but the last, then the last in full, trimmed). -/
theorem C1_passphrase_postconditions (c : PassphraseMarkovChain) (minE : ℝ)
    (rng : ℕ → ℕ × ℚ) (fuel : ℕ) (s : Ngram) (e : ℝ)
    (hrun : passphrase c minE rng fuel = some (s, e)) :
    ∃ sel es lastg heads,
      sel ≠ [] ∧
      sel.mapM (fun g => ngramEntropy c g) = some es ∧
      e = c.startingEntropy + es.sum ∧
      minE ≤ e ∧
      sel.getLast? = some lastg ∧ lastg.getLast? = some ' ' ∧
      sel.mapM List.head? = some heads ∧
      s = trimChars (heads ++ lastg.drop 1) := by
  rw [passphrase] at hrun
  split at hrun
  · exact absurd hrun (by simp)
  · rename_i g0 hg0
    split at hrun
    · exact absurd hrun (by simp)
    · rename_i sel0 e0 hloop
      split at hrun
      · exact absurd hrun (by simp)
      · rename_i s0 hbuild
        obtain ⟨hs, he⟩ := Prod.mk.injEq s0 e0 s e ▸ Option.some.inj hrun
        subst hs
        subst he
        obtain ⟨suf, es, h1, h2, h3, h4, h5, lastg, h6, h7⟩ :=
          passphraseLoop_trace c minE rng fuel g0 [] c.startingEntropy 1
            (sel0, e0) hloop
        have hsel : sel0 = suf := by simpa using h1
        simp only [buildPassphrase, hsel, h6] at hbuild
        obtain ⟨heads, hheads, hs0⟩ := Option.map_eq_some'.mp hbuild
        exact ⟨suf, es, lastg, heads, h2, h3, h4, h5, h6, h7, hheads, hs0.symm⟩

/-- Evaluation of a concrete run on `chain4`: every OS draw `(0, 0)` starts
at `" a "` and stops immediately, yielding the trimmed string `"a"` and
entropy `3/2 + 1 = 5/2`. -/
theorem chain4_run_A : passphrase chain4 0 rngA 1 = some (ng "a", 5 / 2) := by
  have hent : ngramEntropy chain4 (ng " a ") = some (weight_entropy [1, 1]) :=
    rfl
  have hval : chain4.startingEntropy + weight_entropy [1, 1] = 5 / 2 := by
    show weight_entropy [2, 1, 1] + weight_entropy [1, 1] = 5 / 2
    rw [weight_entropy_triple, weight_entropy_pair]
    norm_num
  have hcond : (0 : ℝ) ≤ chain4.startingEntropy + weight_entropy [1, 1] ∧
      (ng " a ").getLast? = some ' ' := by
    refine ⟨?_, rfl⟩
    rw [hval]
    norm_num
  have hloop : passphraseLoop chain4 0 rngA 1 (ng " a ") []
      chain4.startingEntropy 1 = some ([ng " a "], 5 / 2) := by
    have h := passphraseLoop_stop chain4 0 rngA 0 (ng " a ") []
      chain4.startingEntropy 1 (weight_entropy [1, 1]) hent hcond
    rw [hval] at h
    exact h
  have hstart : getStartingNgram chain4 (rngA 0).1 (rngA 0).2 =
      some (ng " a ") := rfl
  simp only [passphrase, hstart, hloop]
  rfl

/-- Evaluation of a second concrete run on `chain4`: every OS draw `(1, 0)`
starts at `" b "` and stops immediately, yielding `"b"` and entropy `3/2`. -/
theorem chain4_run_B : passphrase chain4 0 rngB 1 = some (ng "b", 3 / 2) := by
  have hent : ngramEntropy chain4 (ng " b ") = some (weight_entropy [1]) := rfl
  have hval : chain4.startingEntropy + weight_entropy [1] = 3 / 2 := by
    show weight_entropy [2, 1, 1] + weight_entropy [1] = 3 / 2
    rw [weight_entropy_triple, weight_entropy_one]
    norm_num
  have hcond : (0 : ℝ) ≤ chain4.startingEntropy + weight_entropy [1] ∧
      (ng " b ").getLast? = some ' ' := by
    refine ⟨?_, rfl⟩
    rw [hval]
    norm_num
  have hloop : passphraseLoop chain4 0 rngB 1 (ng " b ") []
      chain4.startingEntropy 1 = some ([ng " b "], 3 / 2) := by
    have h := passphraseLoop_stop chain4 0 rngB 0 (ng " b ") []
      chain4.startingEntropy 1 (weight_entropy [1]) hent hcond
    rw [hval] at h
    exact h
  have hchoice : dist211.choice 1 0 = 1 := by
    simp only [AliasDistribution.choice, AliasDistribution.size, dist211]
    norm_num
  have hstart : getStartingNgram chain4 (rngB 0).1 (rngB 0).2 =
      some (ng " b ") := by
    show getStartingNgram chain4 1 0 = some (ng " b ")
    simp only [getStartingNgram,
      show chain4.startingDist = dist211 from rfl, hchoice]
    rfl
  simp only [passphrase, hstart, hloop]
  rfl

/-- Witness for C1: the concrete run of `chain4` on the all-zero draw
stream returns `("a", 5/2)`, and the postconditions hold there. -/
theorem C1_passphrase_postconditions_witness :
    ∃ sel es lastg heads,
      sel ≠ [] ∧
      sel.mapM (fun g => ngramEntropy chain4 g) = some es ∧
      (5 / 2 : ℝ) = chain4.startingEntropy + es.sum ∧
      (0 : ℝ) ≤ (5 / 2 : ℝ) ∧
      sel.getLast? = some lastg ∧ lastg.getLast? = some ' ' ∧
      sel.mapM List.head? = some heads ∧
      ng "a" = trimChars (heads ++ lastg.drop 1) :=
  C1_passphrase_postconditions chain4 0 rngA 1 (ng "a") (5 / 2) chain4_run_A

/-! ## C9 — randomness and determinism -/

theorem passphraseLoop_congr (c : PassphraseMarkovChain) (minE : ℝ)
    (rng1 rng2 : ℕ → ℕ × ℚ) :
    ∀ (fuel : ℕ) (cur : Ngram) (sel : List Ngram) (e : ℝ) (k : ℕ),
      (∀ j, k ≤ j → j < k + fuel → rng1 j = rng2 j) →
      passphraseLoop c minE rng1 fuel cur sel e k =
        passphraseLoop c minE rng2 fuel cur sel e k := by
  intro fuel
  induction fuel with
  | zero =>
    intro cur sel e k h
    rfl
  | succ n ih =>
    intro cur sel e k h
    cases hent : ngramEntropy c cur with
    | none => simp only [passphraseLoop, hent]
    | some hh =>
      by_cases hcond : minE ≤ e + hh ∧ cur.getLast? = some ' '
      · rw [passphraseLoop_stop c minE rng1 n cur sel e k hh hent hcond,
          passphraseLoop_stop c minE rng2 n cur sel e k hh hent hcond]
      · have hk : rng1 k = rng2 k := h k le_rfl (by omega)
        cases hnext : getNextNgram c cur (rng2 k).1 (rng2 k).2 with
        | none =>
          simp only [passphraseLoop, hent]
          rw [if_neg hcond, if_neg hcond, hk, hnext]
        | some nxt =>
          rw [passphraseLoop_cont c minE rng1 n cur sel e k hh nxt hent hcond
              (by rw [hk]; exact hnext),
            passphraseLoop_cont c minE rng2 n cur sel e k hh nxt hent hcond
              hnext]
          exact ih nxt (sel ++ [cur]) (e + hh) (k + 1)
            (fun j h1 h2 => h j (by omega) (by omega))

/-- C9 (amended): in the source the random draws are taken internally from
the operating-system generator `OsRng` (`markovchain.rs`, `next`,
`get_starting_ngram`; `alias_dist.rs`, `choice`), not from an injectable or
seedable source, so a caller cannot fix a seed; what does hold is that the
output is a deterministic function of the draw stream: two runs whose OS
draws agree at every index consulted (0 through `fuel`) return identical
`(string, entropy)` results. -/
theorem C9_stream_determinism (c : PassphraseMarkovChain) (minE : ℝ)
    (rng1 rng2 : ℕ → ℕ × ℚ) (fuel : ℕ)
    (h : ∀ j ≤ fuel, rng1 j = rng2 j) :
    passphrase c minE rng1 fuel = passphrase c minE rng2 fuel := by
  simp only [passphrase, h 0 (Nat.zero_le fuel)]
  cases hstart : getStartingNgram c (rng2 0).1 (rng2 0).2 with
  | none => simp only [hstart]
  | some g0 =>
    simp only [hstart]
    rw [passphraseLoop_congr c minE rng1 rng2 fuel g0 [] c.startingEntropy 1
      (fun j h1 h2 => h j (by omega))]

/-- C9 counterexample: the claim as stated is false of the code — the draws
come from process-wide OS randomness (`OsRng`) with no seed parameter, and
two runs whose OS draws differ produce different outputs on the very same
chain, so no caller-fixable seed makes `passphrase` reproducible. -/
theorem C9_osrng_counterexample :
    passphrase chain4 0 rngA 1 ≠ passphrase chain4 0 rngB 1 := by
  rw [chain4_run_A, chain4_run_B]
  simp only [ne_eq, Option.some.injEq, Prod.mk.injEq, not_and]
  intro hcon
  exact absurd hcon (by decide)

/-- Witness for C9: `rngA` and `rngD` agree on every draw index up to the
fuel bound 1, so the two runs coincide. -/
theorem C9_stream_determinism_witness :
    (∀ j ≤ 1, rngA j = rngD j) ∧
      passphrase chain4 0 rngA 1 = passphrase chain4 0 rngD 1 :=
  ⟨by decide, C9_stream_determinism chain4 0 rngA rngD 1 (by decide)⟩

/-! ## C8 — the `ngrams8` fixture -/

theorem next_dist1 (g v : Ngram) (h : ℝ) (r : ℕ) (y : ℚ) :
    (⟨g, [v], dist1, h⟩ : MarkovNode).next r y = v := by
  rw [MarkovNode.next]
  simp only [AliasDistribution.choice, AliasDistribution.size, dist1,
    List.length_singleton, Nat.mod_one, List.getD_cons_zero, ite_self]

theorem next_ct (g v w : Ngram) (h : ℝ) (r : ℕ) (y : ℚ) :
    (⟨g, [v, w], dist2, h⟩ : MarkovNode).next r y = v ∨
      (⟨g, [v, w], dist2, h⟩ : MarkovNode).next r y = w := by
  rw [MarkovNode.next]
  simp only [AliasDistribution.choice, AliasDistribution.size, dist2]
  rcases Nat.mod_two_eq_zero_or_one r with h0 | h1
  · left
    simp [h0]
  · right
    simp [h1]

theorem choice_dist2_mod (r : ℕ) (y : ℚ) : dist2.choice r y = r % 2 := by
  have hshow : dist2.choice r y =
      (if y ≤ List.getD [(1 : ℚ), 1] (r % 2) 0 then r % 2
       else List.getD [0, 1] (r % 2) 0) := rfl
  rw [hshow]
  rcases Nat.mod_two_eq_zero_or_one r with h0 | h0 <;> rw [h0] <;> simp

theorem start8 (r : ℕ) (y : ℚ) :
    getStartingNgram fixtureChain r y = some (ng " ti") ∨
      getStartingNgram fixtureChain r y = some (ng " to") := by
  have hshow : getStartingNgram fixtureChain r y =
      (lookupNode fixtureChain
        ([ng " ti", ng " to"].getD (dist2.choice r y) [])).map
          MarkovNode.value := rfl
  rw [hshow, choice_dist2_mod]
  rcases Nat.mod_two_eq_zero_or_one r with h0 | h0 <;> rw [h0]
  · left
    rfl
  · right
    rfl

theorem trim_heads (rest : List Char) :
    trimChars (' ' :: 't' :: rest ++ ['c', ' ']) = 't' :: rest ++ ['c'] := by
  rw [trimChars]
  rw [show List.dropWhile Char.isWhitespace (' ' :: 't' :: rest ++ ['c', ' ']) =
    't' :: rest ++ ['c', ' '] from by simp [List.dropWhile]]
  rw [show ('t' :: rest ++ ['c', ' ']).reverse =
    ' ' :: 'c' :: ('t' :: rest).reverse from by simp]
  rw [show List.dropWhile Char.isWhitespace
      (' ' :: 'c' :: ('t' :: rest).reverse) = 'c' :: ('t' :: rest).reverse
    from by simp [List.dropWhile]]
  simp

theorem getLast_cons_ne (a : Ngram) (l : List Ngram) (h : l ≠ []) :
    (a :: l).getLast? = l.getLast? := by
  rcases l with _ | ⟨b, t⟩
  · exact absurd rfl h
  · rw [List.getLast?_cons_cons]

theorem buildNodes_cons (g : Ngram) (counts : List (Ngram × ℕ))
    (rest : List (Ngram × List (Ngram × ℕ))) (ws : List ℚ)
    (d : AliasDistribution) (vs : List Ngram)
    (nodes : List (Ngram × MarkovNode)) (total : ℝ)
    (hws : counts.map (fun c => ((c.2 : ℕ) : ℚ)) = ws)
    (hvs : counts.map Prod.fst = vs)
    (hd : waiNew ws = some d)
    (hr : buildNodes rest = some (nodes, total)) :
    buildNodes ((g, counts) :: rest) =
      some ((g, ⟨g, vs, d, weight_entropy ws⟩) :: nodes,
        weight_entropy ws + total) := by
  subst hws
  subst hvs
  simp only [buildNodes, MarkovNode.new, hd, hr]
  rfl

theorem new8 : PassphraseMarkovChain.new ngrams8 = some (.ok fixtureChain) := by
  have b0 : buildNodes ([] : List (Ngram × List (Ngram × ℕ))) = some ([], 0) :=
    rfl
  have b7 := buildNodes_cons (ng "oc ") [(ng "c t", 1)] [] [1] dist1
    [ng "c t"] [] 0 (by norm_num) rfl wai_one b0
  have b6 := buildNodes_cons (ng "toc") [(ng "oc ", 1)]
    [(ng "oc ", [(ng "c t", 1)])] [1] dist1 [ng "oc "] _ _
    (by norm_num) rfl wai_one b7
  have b5 := buildNodes_cons (ng " to") [(ng "toc", 1)]
    [(ng "toc", [(ng "oc ", 1)]), (ng "oc ", [(ng "c t", 1)])] [1] dist1
    [ng "toc"] _ _ (by norm_num) rfl wai_one b6
  have b4 := buildNodes_cons (ng "c t") [(ng " to", 1), (ng " ti", 1)]
    [(ng " to", [(ng "toc", 1)]), (ng "toc", [(ng "oc ", 1)]),
     (ng "oc ", [(ng "c t", 1)])] [1, 1] dist2 [ng " to", ng " ti"] _ _
    (by norm_num) rfl wai_pair b5
  have b3 := buildNodes_cons (ng "ic ") [(ng "c t", 1)]
    [(ng "c t", [(ng " to", 1), (ng " ti", 1)]),
     (ng " to", [(ng "toc", 1)]), (ng "toc", [(ng "oc ", 1)]),
     (ng "oc ", [(ng "c t", 1)])] [1] dist1 [ng "c t"] _ _
    (by norm_num) rfl wai_one b4
  have b2 := buildNodes_cons (ng "tic") [(ng "ic ", 1)]
    [(ng "ic ", [(ng "c t", 1)]),
     (ng "c t", [(ng " to", 1), (ng " ti", 1)]),
     (ng " to", [(ng "toc", 1)]), (ng "toc", [(ng "oc ", 1)]),
     (ng "oc ", [(ng "c t", 1)])] [1] dist1 [ng "ic "] _ _
    (by norm_num) rfl wai_one b3
  have b1 := buildNodes_cons (ng " ti") [(ng "tic", 1)]
    [(ng "tic", [(ng "ic ", 1)]), (ng "ic ", [(ng "c t", 1)]),
     (ng "c t", [(ng " to", 1), (ng " ti", 1)]),
     (ng " to", [(ng "toc", 1)]), (ng "toc", [(ng "oc ", 1)]),
     (ng "oc ", [(ng "c t", 1)])] [1] dist1 [ng "tic"] _ _
    (by norm_num) rfl wai_one b2
  have hT : weight_entropy [1] + (weight_entropy [1] + (weight_entropy [1] +
      (weight_entropy [1, 1] + (weight_entropy [1] + (weight_entropy [1] +
        (weight_entropy [1] + 0)))))) = (1 : ℝ) := by
    rw [weight_entropy_one, weight_entropy_pair]
    norm_num
  rw [hT] at b1
  have hbn : buildNodes (transitionCounters
      (ng " ti" :: [ng "tic", ng "ic ", ng "c t", ng " to", ng "toc",
        ng "oc ", ng "c t"])) = some (fixtureChain.nodes, (1 : ℝ)) := by
    rw [show transitionCounters
      (ng " ti" :: [ng "tic", ng "ic ", ng "c t", ng " to", ng "toc",
        ng "oc ", ng "c t"]) =
      [(ng " ti", [(ng "tic", 1)]),
       (ng "tic", [(ng "ic ", 1)]), (ng "ic ", [(ng "c t", 1)]),
       (ng "c t", [(ng " to", 1), (ng " ti", 1)]),
       (ng " to", [(ng "toc", 1)]), (ng "toc", [(ng "oc ", 1)]),
       (ng "oc ", [(ng "c t", 1)])] from rfl]
    rw [b1]
    rfl
  have hsw : (startingCounts
      (ng " ti" :: [ng "tic", ng "ic ", ng "c t", ng " to", ng "toc",
        ng "oc ", ng "c t"])).map (fun p => ((p.2 : ℕ) : ℚ)) = [1, 1] := by
    rw [show startingCounts
      (ng " ti" :: [ng "tic", ng "ic ", ng "c t", ng " to", ng "toc",
        ng "oc ", ng "c t"]) = [(ng " ti", 1), (ng " to", 1)] from rfl]
    norm_num
  show PassphraseMarkovChain.new
    (ng " ti" :: [ng "tic", ng "ic ", ng "c t", ng " to", ng "toc",
      ng "oc ", ng "c t"]) = some (.ok fixtureChain)
  rw [PassphraseMarkovChain.new, hsw]
  simp only [wai_pair, hbn]
  rw [if_neg (by norm_num : ¬(1 : ℝ) = 0)]
  rw [if_neg (by rw [weight_entropy_pair]; norm_num :
    ¬weight_entropy [1, 1] = 0)]
  rfl

theorem next8_ti (r : ℕ) (y : ℚ) :
    getNextNgram fixtureChain (ng " ti") r y = some (ng "tic") := by
  have hshow : getNextNgram fixtureChain (ng " ti") r y =
      some ((⟨ng " ti", [ng "tic"], dist1, weight_entropy [1]⟩ :
        MarkovNode).next r y) := rfl
  rw [hshow, next_dist1]

theorem next8_tic (r : ℕ) (y : ℚ) :
    getNextNgram fixtureChain (ng "tic") r y = some (ng "ic ") := by
  have hshow : getNextNgram fixtureChain (ng "tic") r y =
      some ((⟨ng "tic", [ng "ic "], dist1, weight_entropy [1]⟩ :
        MarkovNode).next r y) := rfl
  rw [hshow, next_dist1]

theorem next8_ic (r : ℕ) (y : ℚ) :
    getNextNgram fixtureChain (ng "ic ") r y = some (ng "c t") := by
  have hshow : getNextNgram fixtureChain (ng "ic ") r y =
      some ((⟨ng "ic ", [ng "c t"], dist1, weight_entropy [1]⟩ :
        MarkovNode).next r y) := rfl
  rw [hshow, next_dist1]

theorem next8_to (r : ℕ) (y : ℚ) :
    getNextNgram fixtureChain (ng " to") r y = some (ng "toc") := by
  have hshow : getNextNgram fixtureChain (ng " to") r y =
      some ((⟨ng " to", [ng "toc"], dist1, weight_entropy [1]⟩ :
        MarkovNode).next r y) := rfl
  rw [hshow, next_dist1]

theorem next8_toc (r : ℕ) (y : ℚ) :
    getNextNgram fixtureChain (ng "toc") r y = some (ng "oc ") := by
  have hshow : getNextNgram fixtureChain (ng "toc") r y =
      some ((⟨ng "toc", [ng "oc "], dist1, weight_entropy [1]⟩ :
        MarkovNode).next r y) := rfl
  rw [hshow, next_dist1]

theorem next8_oc (r : ℕ) (y : ℚ) :
    getNextNgram fixtureChain (ng "oc ") r y = some (ng "c t") := by
  have hshow : getNextNgram fixtureChain (ng "oc ") r y =
      some ((⟨ng "oc ", [ng "c t"], dist1, weight_entropy [1]⟩ :
        MarkovNode).next r y) := rfl
  rw [hshow, next_dist1]

theorem next8_ct (r : ℕ) (y : ℚ) :
    getNextNgram fixtureChain (ng "c t") r y = some (ng " to") ∨
      getNextNgram fixtureChain (ng "c t") r y = some (ng " ti") := by
  have hshow : getNextNgram fixtureChain (ng "c t") r y =
      some ((⟨ng "c t", [ng " to", ng " ti"], dist2, weight_entropy [1, 1]⟩ :
        MarkovNode).next r y) := rfl
  rcases next_ct (ng "c t") (ng " to") (ng " ti") (weight_entropy [1, 1]) r y
    with h | h
  · left
    rw [hshow, h]
  · right
    rw [hshow, h]

theorem mapM_head_cons (g : Ngram) (c : Char) (l : List Ngram)
    (cs : List Char) (hg : g.head? = some c)
    (hl : l.mapM List.head? = some cs) :
    (g :: l).mapM List.head? = some (c :: cs) := by
  rw [List.mapM_cons, hg, hl]
  rfl

theorem loop8_cycle (rng : ℕ → ℕ × ℚ) (cur mid sp : Ngram)
    (sel : List Ngram) (e : ℝ) (k f : ℕ)
    (hentc : ngramEntropy fixtureChain cur = some (weight_entropy [1]))
    (hentm : ngramEntropy fixtureChain mid = some (weight_entropy [1]))
    (hents : ngramEntropy fixtureChain sp = some (weight_entropy [1]))
    (hnc : getNextNgram fixtureChain cur (rng k).1 (rng k).2 = some mid)
    (hnm : getNextNgram fixtureChain mid
      (rng (k + 1)).1 (rng (k + 1)).2 = some sp)
    (hns : getNextNgram fixtureChain sp
      (rng (k + 2)).1 (rng (k + 2)).2 = some (ng "c t"))
    (hcc : cur.getLast? ≠ some ' ') (hcm : mid.getLast? ≠ some ' ')
    (hlow : ¬(60 : ℝ) ≤ e + weight_entropy [1] + weight_entropy [1] +
      weight_entropy [1]) :
    ∃ nxt, (nxt = ng " to" ∨ nxt = ng " ti") ∧
      passphraseLoop fixtureChain 60 rng (f + 4) cur sel e k =
        passphraseLoop fixtureChain 60 rng f nxt
          (sel ++ [cur, mid, sp, ng "c t"])
          (e + weight_entropy [1] + weight_entropy [1] + weight_entropy [1] +
            weight_entropy [1, 1]) (k + 4) := by
  obtain ⟨nxt, hmem, hnct⟩ : ∃ nxt, (nxt = ng " to" ∨ nxt = ng " ti") ∧
      getNextNgram fixtureChain (ng "c t")
        (rng (k + 3)).1 (rng (k + 3)).2 = some nxt := by
    rcases next8_ct (rng (k + 3)).1 (rng (k + 3)).2 with h | h
    · exact ⟨_, Or.inl rfl, h⟩
    · exact ⟨_, Or.inr rfl, h⟩
  refine ⟨nxt, hmem, ?_⟩
  rw [show f + 4 = (f + 3) + 1 from rfl]
  rw [passphraseLoop_cont fixtureChain 60 rng (f + 3) cur sel e k
    (weight_entropy [1]) mid hentc (fun hc => hcc hc.2) hnc]
  rw [show f + 3 = (f + 2) + 1 from rfl]
  rw [passphraseLoop_cont fixtureChain 60 rng (f + 2) mid (sel ++ [cur])
    (e + weight_entropy [1]) (k + 1) (weight_entropy [1]) sp hentm
    (fun hc => hcm hc.2) hnm]
  rw [show f + 2 = (f + 1) + 1 from rfl]
  rw [passphraseLoop_cont fixtureChain 60 rng (f + 1) sp
    ((sel ++ [cur]) ++ [mid]) (e + weight_entropy [1] + weight_entropy [1])
    (k + 2) (weight_entropy [1]) (ng "c t") hents (fun hc => hlow hc.1) hns]
  rw [passphraseLoop_cont fixtureChain 60 rng f (ng "c t")
    (((sel ++ [cur]) ++ [mid]) ++ [sp])
    (e + weight_entropy [1] + weight_entropy [1] + weight_entropy [1])
    (k + 3) (weight_entropy [1, 1]) nxt rfl
    (fun hc => absurd hc.2 (by decide)) hnct]
  simp [List.append_assoc]

theorem loop8 : ∀ (m : ℕ), m ≤ 59 →
    ∀ (cur : Ngram), (cur = ng " ti" ∨ cur = ng " to") →
    ∀ (e : ℝ), e = 60 - (m : ℝ) →
    ∀ (sel : List Ngram) (k : ℕ) (rng : ℕ → ℕ × ℚ),
    ∃ suf rest lastg,
      passphraseLoop fixtureChain 60 rng (4 * m + 3) cur sel e k =
        some (sel ++ suf, 60) ∧
      suf.mapM List.head? = some (' ' :: 't' :: rest) ∧
      rest.length = 4 * m + 1 ∧
      suf.getLast? = some lastg ∧
      (lastg = ng "ic " ∨ lastg = ng "oc ") := by
  intro m
  induction m with
  | zero =>
    intro _ cur hcur e he sel k rng
    have he60 : e = 60 := by
      rw [he]
      norm_num
    have hfin : e + weight_entropy [1] + weight_entropy [1] +
        weight_entropy [1] = 60 := by
      rw [he60, weight_entropy_one]
      norm_num
    rcases hcur with rfl | rfl
    · refine ⟨[ng " ti", ng "tic", ng "ic "], ['i'], ng "ic ", ?_,
        mapM_head_cons _ _ _ _ rfl (mapM_head_cons _ _ _ _ rfl
          (mapM_head_cons _ _ _ _ rfl rfl)), rfl, rfl, Or.inl rfl⟩
      rw [show 4 * 0 + 3 = 2 + 1 from rfl]
      rw [passphraseLoop_cont fixtureChain 60 rng 2 (ng " ti") sel e k
        (weight_entropy [1]) (ng "tic") rfl
        (fun hc => absurd hc.2 (by decide)) (next8_ti _ _)]
      rw [show (2 : ℕ) = 1 + 1 from rfl]
      rw [passphraseLoop_cont fixtureChain 60 rng 1 (ng "tic")
        (sel ++ [ng " ti"]) (e + weight_entropy [1]) (k + 1)
        (weight_entropy [1]) (ng "ic ") rfl
        (fun hc => absurd hc.2 (by decide)) (next8_tic _ _)]
      rw [show (1 : ℕ) = 0 + 1 from rfl]
      rw [passphraseLoop_stop fixtureChain 60 rng 0 (ng "ic ")
        ((sel ++ [ng " ti"]) ++ [ng "tic"])
        (e + weight_entropy [1] + weight_entropy [1]) (k + 2)
        (weight_entropy [1]) rfl ⟨by rw [hfin], rfl⟩]
      rw [hfin]
      simp [List.append_assoc]
    · refine ⟨[ng " to", ng "toc", ng "oc "], ['o'], ng "oc ", ?_,
        mapM_head_cons _ _ _ _ rfl (mapM_head_cons _ _ _ _ rfl
          (mapM_head_cons _ _ _ _ rfl rfl)), rfl, rfl, Or.inr rfl⟩
      rw [show 4 * 0 + 3 = 2 + 1 from rfl]
      rw [passphraseLoop_cont fixtureChain 60 rng 2 (ng " to") sel e k
        (weight_entropy [1]) (ng "toc") rfl
        (fun hc => absurd hc.2 (by decide)) (next8_to _ _)]
      rw [show (2 : ℕ) = 1 + 1 from rfl]
      rw [passphraseLoop_cont fixtureChain 60 rng 1 (ng "toc")
        (sel ++ [ng " to"]) (e + weight_entropy [1]) (k + 1)
        (weight_entropy [1]) (ng "oc ") rfl
        (fun hc => absurd hc.2 (by decide)) (next8_toc _ _)]
      rw [show (1 : ℕ) = 0 + 1 from rfl]
      rw [passphraseLoop_stop fixtureChain 60 rng 0 (ng "oc ")
        ((sel ++ [ng " to"]) ++ [ng "toc"])
        (e + weight_entropy [1] + weight_entropy [1]) (k + 2)
        (weight_entropy [1]) rfl ⟨by rw [hfin], rfl⟩]
      rw [hfin]
      simp [List.append_assoc]
  | succ n ih =>
    intro hm cur hcur e he sel k rng
    have hn : n ≤ 59 := by omega
    have hnn : (0 : ℝ) ≤ (n : ℝ) := Nat.cast_nonneg n
    have hlow : ¬(60 : ℝ) ≤ e + weight_entropy [1] + weight_entropy [1] +
        weight_entropy [1] := by
      rw [he, weight_entropy_one]
      push_cast
      intro hcon
      linarith
    have he2 : e + weight_entropy [1] + weight_entropy [1] +
        weight_entropy [1] + weight_entropy [1, 1] = 60 - (n : ℝ) := by
      rw [he, weight_entropy_one, weight_entropy_pair]
      push_cast
      ring
    rcases hcur with rfl | rfl
    · obtain ⟨nxt, hmem, hstep⟩ := loop8_cycle rng (ng " ti") (ng "tic")
        (ng "ic ") sel e k (4 * n + 3) rfl rfl rfl (next8_ti _ _)
        (next8_tic _ _) (next8_ic _ _) (by decide) (by decide) hlow
      obtain ⟨suf, rest, lastg, hloop, hheads, hlen, hlast, hlmem⟩ :=
        ih hn nxt hmem.symm _ he2
          (sel ++ [ng " ti", ng "tic", ng "ic ", ng "c t"]) (k + 4) rng
      have hsufne : suf ≠ [] := by
        intro h
        rw [h] at hlast
        simp at hlast
      refine ⟨ng " ti" :: ng "tic" :: ng "ic " :: ng "c t" :: suf,
        'i' :: 'c' :: ' ' :: 't' :: rest, lastg, ?_,
        mapM_head_cons _ _ _ _ rfl (mapM_head_cons _ _ _ _ rfl
          (mapM_head_cons _ _ _ _ rfl
            (mapM_head_cons _ _ _ _ rfl hheads))), ?_, ?_, hlmem⟩
      · rw [show 4 * (n + 1) + 3 = (4 * n + 3) + 4 from by ring]
        rw [hstep, hloop, List.append_assoc]
        rfl
      · simp only [List.length_cons, hlen]
        ring
      · rw [getLast_cons_ne _ _ (List.cons_ne_nil _ _),
          getLast_cons_ne _ _ (List.cons_ne_nil _ _),
          getLast_cons_ne _ _ (List.cons_ne_nil _ _),
          getLast_cons_ne _ _ hsufne, hlast]
    · obtain ⟨nxt, hmem, hstep⟩ := loop8_cycle rng (ng " to") (ng "toc")
        (ng "oc ") sel e k (4 * n + 3) rfl rfl rfl (next8_to _ _)
        (next8_toc _ _) (next8_oc _ _) (by decide) (by decide) hlow
      obtain ⟨suf, rest, lastg, hloop, hheads, hlen, hlast, hlmem⟩ :=
        ih hn nxt hmem.symm _ he2
          (sel ++ [ng " to", ng "toc", ng "oc ", ng "c t"]) (k + 4) rng
      have hsufne : suf ≠ [] := by
        intro h
        rw [h] at hlast
        simp at hlast
      refine ⟨ng " to" :: ng "toc" :: ng "oc " :: ng "c t" :: suf,
        'o' :: 'c' :: ' ' :: 't' :: rest, lastg, ?_,
        mapM_head_cons _ _ _ _ rfl (mapM_head_cons _ _ _ _ rfl
          (mapM_head_cons _ _ _ _ rfl
            (mapM_head_cons _ _ _ _ rfl hheads))), ?_, ?_, hlmem⟩
      · rw [show 4 * (n + 1) + 3 = (4 * n + 3) + 4 from by ring]
        rw [hstep, hloop, List.append_assoc]
        rfl
      · simp only [List.length_cons, hlen]
        ring
      · rw [getLast_cons_ne _ _ (List.cons_ne_nil _ _),
          getLast_cons_ne _ _ (List.cons_ne_nil _ _),
          getLast_cons_ne _ _ (List.cons_ne_nil _ _),
          getLast_cons_ne _ _ hsufne, hlast]

/-- C8: on the fixed test corpus `[" ti","tic","ic ","c t"," to","toc",
"oc ","c t"]` construction succeeds, the starting entropy is exactly 1,
exactly the two word-start n-grams `" ti"` and `" to"` are recorded, and
for every draw stream the generated passphrase at `min_entropy = 60` has
entropy exactly 60 and exactly 239 characters. -/
theorem C8_fixture_behaviour :
    PassphraseMarkovChain.new ngrams8 = some (.ok fixtureChain) ∧
    fixtureChain.startingEntropy = 1 ∧
    fixtureChain.startingNgrams = [ng " ti", ng " to"] ∧
    ∀ rng : ℕ → ℕ × ℚ, ∃ s : Ngram,
      passphrase fixtureChain 60 rng 239 = some (s, 60) ∧
      s.length = 239 := by
  refine ⟨new8, weight_entropy_pair, rfl, ?_⟩
  intro rng
  have hkey : ∀ g0, (g0 = ng " ti" ∨ g0 = ng " to") →
      getStartingNgram fixtureChain (rng 0).1 (rng 0).2 = some g0 →
      ∃ s, passphrase fixtureChain 60 rng 239 = some (s, 60) ∧
        s.length = 239 := by
    intro g0 hg0 hstart
    have hse : fixtureChain.startingEntropy = 60 - ((59 : ℕ) : ℝ) := by
      show weight_entropy [1, 1] = 60 - ((59 : ℕ) : ℝ)
      rw [weight_entropy_pair]
      norm_num
    obtain ⟨suf, rest, lastg, hloop, hheads, hlen, hlast, hlmem⟩ :=
      loop8 59 (by norm_num) g0 hg0 fixtureChain.startingEntropy hse [] 1 rng
    rw [show (4 * 59 + 3 : ℕ) = 239 from rfl] at hloop
    simp only [List.nil_append] at hloop
    have hdrop : lastg.drop 1 = ['c', ' '] := by
      rcases hlmem with rfl | rfl
      · rfl
      · rfl
    have hbp : buildPassphrase suf = some ('t' :: rest ++ ['c']) := by
      simp only [buildPassphrase, hlast, hheads, hdrop, Option.map_some']
      rw [trim_heads]
    refine ⟨'t' :: rest ++ ['c'], ?_, ?_⟩
    · simp only [passphrase, hstart, hloop, hbp]
    · simp only [List.length_cons, List.length_append,
        List.length_singleton, List.length_nil, hlen]
  rcases start8 (rng 0).1 (rng 0).2 with h | h
  · exact hkey _ (Or.inl rfl) h
  · exact hkey _ (Or.inr rfl) h

/-- C5 (amended): `AliasDistribution::new` returns `InvalidWeight` iff some
weight has a negative sign bit (which includes `-0.0`), is NaN, or is
infinite; among vectors with no such weight it returns `NullDistribution`
iff the vector is empty or the weights sum to exactly 0, and succeeds
otherwise. -/
theorem C5_error_characterization (ws : List F64) :
    (AliasDistribution.new ws = .error .invalidWeight ↔
      ∃ w ∈ ws, w.isSignNegative = true ∨ w.isFinite = false) ∧
    ((∀ w ∈ ws, w.isSignNegative = false ∧ w.isFinite = true) →
      ((AliasDistribution.new ws = .error .nullDistribution ↔
          (ws = [] ∨ (ws.map F64.toQ).sum = 0)) ∧
        ((∃ d, AliasDistribution.new ws = .ok d) ↔
          (ws ≠ [] ∧ (ws.map F64.toQ).sum ≠ 0)))) := by
  by_cases hA : ws.any (fun w => w.isSignNegative || !w.isFinite) = true
  · refine ⟨by simp [AliasDistribution.new, hA, (anyInvalid_iff ws).mp hA], ?_⟩
    intro hval
    rcases (anyInvalid_iff ws).mp hA with ⟨w, hw, hcase⟩
    rcases hcase with hneg | hfin
    · exact absurd hneg (by simp [(hval w hw).1])
    · exact absurd hfin (by simp [(hval w hw).2])
  · have hiff := (anyInvalid_iff ws).not.mp hA
    have part1 : AliasDistribution.new ws = .error .invalidWeight ↔
        ∃ w ∈ ws, w.isSignNegative = true ∨ w.isFinite = false := by
      by_cases hT : (ws.map F64.toQ).sum = 0
      · simp only [AliasDistribution.new, hA, Bool.false_eq_true, if_false, if_pos hT]
        constructor
        · intro h
          exact absurd h (by simp)
        · intro h
          exact absurd h hiff
      · simp only [AliasDistribution.new, hA, Bool.false_eq_true, if_false, if_neg hT]
        constructor
        · intro h
          exact absurd h (by simp)
        · intro h
          exact absurd h hiff
    refine ⟨part1, ?_⟩
    intro _
    by_cases hT : (ws.map F64.toQ).sum = 0
    · constructor
      · simp [AliasDistribution.new, hA, hT]
      · constructor
        · simp [AliasDistribution.new, hA, hT]
        · simp [AliasDistribution.new, hA, hT]
    · have hne : ws ≠ [] := by
        intro h
        exact hT (by simp [h])
      constructor
      · constructor
        · intro h
          simp only [AliasDistribution.new, hA, Bool.false_eq_true, if_false,
            if_neg hT] at h
          exact absurd h (by simp)
        · intro h
          rcases h with h | h
          · exact absurd h hne
          · exact absurd h hT
      · constructor
        · intro _
          exact ⟨hne, hT⟩
        · intro _
          simp only [AliasDistribution.new, hA, Bool.false_eq_true, if_false,
            if_neg hT]
          exact ⟨_, rfl⟩

/-- Witness for C5 at the concrete weight vector `[1.0, 2.0]`. -/
theorem C5_error_characterization_witness :
    AliasDistribution.new [f64 1, f64 2] = .error .nullDistribution ↔
      ([f64 1, f64 2] = [] ∨ (([f64 1, f64 2]).map F64.toQ).sum = 0) :=
  ((C5_error_characterization [f64 1, f64 2]).2 (by decide)).1

/-- Counterexample to C5 as stated: the vector `[-0.0, 1.0]` contains no
negative, NaN, or infinite value, is non-empty, and has non-zero sum — the
claim says it is accepted — yet `new` returns `InvalidWeight`, because the
code tests `is_sign_negative`, which is true for `-0.0`. -/
theorem C5_negative_zero_counterexample :
    f64NegZero.isFinite = true ∧ ¬(f64NegZero.toQ < 0) ∧
    (f64 1).isFinite = true ∧ ¬((f64 1).toQ < 0) ∧
    ([f64NegZero, f64 1] ≠ ([] : List F64)) ∧
    (([f64NegZero, f64 1].map F64.toQ).sum ≠ 0) ∧
    AliasDistribution.new [f64NegZero, f64 1] = .error .invalidWeight := by
  refine ⟨by decide, ?_, by decide, ?_, by decide, ?_, ?_⟩
  · norm_num [f64NegZero, F64.toQ]
  · norm_num [f64, F64.toQ]
  · norm_num [f64NegZero, f64, F64.toQ]
  · rfl

/-! ## C3 — the sampler's entropy -/

/-- C3 (amended): for accepted weight vectors all of whose weights are
strictly positive, the `entropy` field is exactly
`-Σ (w/total) · log2 (w/total)`; in particular `[0.5, 0.5, 1.0, 2.0]` gives
entropy `1.75` and `[1.0, 1.0]` gives `1.0`.  (A zero weight instead makes
the accumulator NaN — see the counterexample.) -/
theorem C3_entropy_formula :
    (∀ ws : List F64, (∀ w ∈ ws, w.isSignNegative = false ∧ w.isFinite = true) →
      (∀ w ∈ ws, 0 < w.toQ) → ws ≠ [] →
      (AliasDistribution.new ws).map AliasDistribution.entropy =
        .ok (some (-(ws.map (fun w =>
          ((w.toQ / (ws.map F64.toQ).sum : ℚ) : ℝ) *
            Real.logb 2 ((w.toQ / (ws.map F64.toQ).sum : ℚ) : ℝ))).sum))) ∧
    (AliasDistribution.new [f64 (1/2), f64 (1/2), f64 1, f64 2]).map
        AliasDistribution.entropy = .ok (some (7/4)) ∧
    (AliasDistribution.new [f64 1, f64 1]).map
        AliasDistribution.entropy = .ok (some 1) := by
  have main : ∀ ws : List F64, (∀ w ∈ ws, w.isSignNegative = false ∧ w.isFinite = true) →
      (∀ w ∈ ws, 0 < w.toQ) → ws ≠ [] →
      (AliasDistribution.new ws).map AliasDistribution.entropy =
        .ok (some (-(ws.map (fun w =>
          ((w.toQ / (ws.map F64.toQ).sum : ℚ) : ℝ) *
            Real.logb 2 ((w.toQ / (ws.map F64.toQ).sum : ℚ) : ℝ))).sum)) := by
    intro ws hval hpos hne
    have hA : ws.any (fun w => w.isSignNegative || !w.isFinite) = true ↔ False := by
      simp only [iff_false]
      intro h
      rcases (anyInvalid_iff ws).mp h with ⟨w, hw, hcase⟩
      rcases hcase with hneg | hfin
      · exact absurd hneg (by simp [(hval w hw).1])
      · exact absurd hfin (by simp [(hval w hw).2])
    have hTpos : 0 < (ws.map F64.toQ).sum := by
      apply List.sum_pos
      · intro q hq
        rcases List.mem_map.mp hq with ⟨w, hw, rfl⟩
        exact hpos w hw
      · simpa using hne
    have hT : ¬((ws.map F64.toQ).sum = 0) := ne_of_gt hTpos
    have hprobs : ∀ p ∈ ws.map (fun w => w.toQ / (ws.map F64.toQ).sum), p ≠ 0 := by
      intro p hp
      rcases List.mem_map.mp hp with ⟨w, hw, rfl⟩
      exact ne_of_gt (div_pos (hpos w hw) hTpos)
    simp only [AliasDistribution.new, hA, eq_self_iff_true, if_false,
      Bool.false_eq_true, if_neg hT]
    rw [Except.map]
    simp only []
    rw [entropyAcc_eq _ hprobs, List.map_map]
    rfl
  refine ⟨main, ?_, ?_⟩
  · rw [main [f64 (1/2), f64 (1/2), f64 1, f64 2] (by decide)
      (by norm_num [f64, F64.toQ]) (by decide)]
    norm_num [f64, F64.toQ, logb_two_eighth, logb_two_quarter, logb_two_half]
  · rw [main [f64 1, f64 1] (by decide) (by norm_num [f64, F64.toQ]) (by decide)]
    norm_num [f64, F64.toQ, logb_two_half]

/-- Witness for C3 at the concrete weight vector `[1.0, 3.0]`. -/
theorem C3_entropy_formula_witness :
    (AliasDistribution.new [f64 1, f64 3]).map AliasDistribution.entropy =
      .ok (some (-(([f64 1, f64 3]).map (fun w =>
        ((w.toQ / (([f64 1, f64 3]).map F64.toQ).sum : ℚ) : ℝ) *
          Real.logb 2
            ((w.toQ / (([f64 1, f64 3]).map F64.toQ).sum : ℚ) : ℝ))).sum)) :=
  C3_entropy_formula.1 [f64 1, f64 3] (by decide) (by norm_num [f64, F64.toQ]) (by decide)

/-- Counterexample to C3 as stated: the claim says weights `[3.0, 0.0, 5.0]`
give a finite (non-NaN) entropy, but the accumulation
`entropy -= p * log2(p)` hits `0 * log2(0) = 0 * -inf = NaN` at the zero
weight, so the stored entropy is NaN (modelled `none`). -/
theorem C3_zero_weight_counterexample :
    (AliasDistribution.new [f64 3, f64 0, f64 5]).map AliasDistribution.entropy =
      .ok none := by
  have hA : ([f64 3, f64 0, f64 5].any (fun w => w.isSignNegative || !w.isFinite)) = false := by
    decide
  have hT : ¬(([f64 3, f64 0, f64 5].map F64.toQ).sum = 0) := by
    norm_num [f64, F64.toQ]
  simp only [AliasDistribution.new, hA, Bool.false_eq_true, if_false, if_neg hT]
  rw [Except.map]
  norm_num [entropyAcc, f64, F64.toQ]

end Markovpass
